import Mathlib

/-!
Verification development for the structview library: typed, mutable object
views over a fixed region of raw bytes.

The embedding models the host byte-buffer primitives (`ArrayBuffer`,
`DataView`, `Uint8Array`) as explicit state over a list of byte cells, and
translates the field codec factories of `fields.ts` and the struct/array
composition of `core.ts` into pure Lean functions over that state.
-/

namespace StructView

/-- A byte buffer (model of a JS `ArrayBuffer`): a list of byte cells.
Well-formed states keep every cell below 256; all writing operations
below maintain this invariant. -/
abbrev Mem := List Nat

/-- Every cell of the buffer is a byte value. -/
def MemOk (m : Mem) : Prop := ∀ b ∈ m, b < 256

instance (m : Mem) : Decidable (MemOk m) := by
  unfold MemOk
  infer_instance

/-- Read the byte cell at index `i`.  Bounds hypotheses in the theorems rule
out the out-of-range case (where the model returns 0). -/
def getByte : Mem → Nat → Nat
  | [], _ => 0
  | b :: _, 0 => b
  | _ :: bs, i + 1 => getByte bs i

/-- Write `v` reduced mod 256 (as the host `SetValueInBuffer` does for
`Uint8`) at index `i`; out-of-range writes leave the buffer unchanged. -/
def setByte : Mem → Nat → Nat → Mem
  | [], _, _ => []
  | _ :: bs, 0, v => v % 256 :: bs
  | b :: bs, i + 1, v => b :: setByte bs i v

theorem length_setByte (m : Mem) (i v : Nat) : (setByte m i v).length = m.length := by
  induction m generalizing i with
  | nil => rfl
  | cons b bs ih =>
    cases i with
    | zero => rfl
    | succ j => simpa [setByte] using ih j

theorem memOk_setByte {m : Mem} (hm : MemOk m) (i v : Nat) : MemOk (setByte m i v) := by
  induction m generalizing i with
  | nil => exact hm
  | cons b bs ih =>
    cases i with
    | zero =>
      intro x hx
      rcases List.mem_cons.mp hx with hx | hx
      · simpa [hx] using Nat.mod_lt v (by norm_num)
      · exact hm x (List.mem_cons_of_mem _ hx)
    | succ j =>
      intro x hx
      rcases List.mem_cons.mp hx with hx | hx
      · exact hm x (by simp [hx])
      · exact ih (fun y hy => hm y (List.mem_cons_of_mem _ hy)) j x hx

theorem getByte_lt {m : Mem} (hm : MemOk m) (i : Nat) : getByte m i < 256 := by
  induction m generalizing i with
  | nil => simp [getByte]
  | cons b bs ih =>
    cases i with
    | zero => exact hm b (by simp)
    | succ j => exact ih (fun y hy => hm y (List.mem_cons_of_mem _ hy)) j

theorem getByte_setByte_self {m : Mem} {i : Nat} (h : i < m.length) (v : Nat) :
    getByte (setByte m i v) i = v % 256 := by
  induction m generalizing i with
  | nil => simp at h
  | cons b bs ih =>
    cases i with
    | zero => rfl
    | succ j => exact ih (by simpa using h)

theorem getByte_setByte_ne (m : Mem) {i j : Nat} (hij : i ≠ j) (v : Nat) :
    getByte (setByte m i v) j = getByte m j := by
  induction m generalizing i j with
  | nil => rfl
  | cons b bs ih =>
    cases i with
    | zero =>
      cases j with
      | zero => exact absurd rfl hij
      | succ j => rfl
    | succ i =>
      cases j with
      | zero => rfl
      | succ j => exact ih (fun h => hij (by simp [h]))

/-- Assemble `n` bytes starting at `off` little-endian (least significant
byte first), the reading direction of the `getUintN(..., true)` DataView
methods. -/
def getBytesLE : Mem → Nat → Nat → Nat
  | _, _, 0 => 0
  | m, off, n + 1 => getByte m off + 256 * getBytesLE m (off + 1) n

/-- Split `v` into `n` bytes starting at `off` little-endian, the storing
direction of the `setUintN(..., true)` DataView methods (which first reduce
the operand mod `2^(8n)`). -/
def setBytesLE : Mem → Nat → Nat → Nat → Mem
  | m, _, 0, _ => m
  | m, off, n + 1, v => setBytesLE (setByte m off v) (off + 1) n (v / 256)

/-- Assemble `n` bytes starting at `off` big-endian (most significant byte
first), as the `getUintN(..., false)` DataView methods read. -/
def getBytesBE : Mem → Nat → Nat → Nat
  | _, _, 0 => 0
  | m, off, n + 1 => getBytesBE m off n * 256 + getByte m (off + n)

/-- Split `v` into `n` bytes starting at `off` big-endian, as the
`setUintN(..., false)` DataView methods store. -/
def setBytesBE : Mem → Nat → Nat → Nat → Mem
  | m, _, 0, _ => m
  | m, off, n + 1, v => setByte (setBytesBE m off n (v / 256)) (off + n) v

theorem length_setBytesLE (m : Mem) (off n v : Nat) :
    (setBytesLE m off n v).length = m.length := by
  induction n generalizing m off v with
  | zero => rfl
  | succ k ih => simp [setBytesLE, ih, length_setByte]

theorem length_setBytesBE (m : Mem) (off n v : Nat) :
    (setBytesBE m off n v).length = m.length := by
  induction n generalizing m off v with
  | zero => rfl
  | succ k ih => simp [setBytesBE, ih, length_setByte]

theorem memOk_setBytesLE {m : Mem} (hm : MemOk m) (off n v : Nat) :
    MemOk (setBytesLE m off n v) := by
  induction n generalizing m off v with
  | zero => exact hm
  | succ k ih => exact ih (memOk_setByte hm off v) (off + 1) (v / 256)

theorem memOk_setBytesBE {m : Mem} (hm : MemOk m) (off n v : Nat) :
    MemOk (setBytesBE m off n v) := by
  induction n generalizing m off v with
  | zero => exact hm
  | succ k ih => exact memOk_setByte (ih hm off (v / 256)) (off + k) v

theorem getByte_setBytesLE_frame (m : Mem) (off n v : Nat) {j : Nat}
    (hj : j < off ∨ off + n ≤ j) :
    getByte (setBytesLE m off n v) j = getByte m j := by
  induction n generalizing m off v with
  | zero => rfl
  | succ k ih =>
    have hne : off ≠ j := by omega
    rw [setBytesLE, ih _ _ _ (by omega), getByte_setByte_ne _ hne]

theorem getByte_setBytesBE_frame (m : Mem) (off n v : Nat) {j : Nat}
    (hj : j < off ∨ off + n ≤ j) :
    getByte (setBytesBE m off n v) j = getByte m j := by
  induction n generalizing m off v with
  | zero => rfl
  | succ k ih =>
    have hne : off + k ≠ j := by omega
    rw [setBytesBE, getByte_setByte_ne _ hne, ih _ _ _ (by omega)]

theorem getBytesLE_setBytesLE {m : Mem} {off n : Nat} (h : off + n ≤ m.length)
    (v : Nat) : getBytesLE (setBytesLE m off n v) off n = v % 256 ^ n := by
  induction n generalizing m off v with
  | zero => simp [getBytesLE, Nat.mod_one]
  | succ k ih =>
    have hlow : getByte (setBytesLE (setByte m off v) (off + 1) k (v / 256)) off
        = v % 256 := by
      rw [getByte_setBytesLE_frame _ _ _ _ (Or.inl (by omega))]
      exact getByte_setByte_self (by omega) v
    have hrest : getBytesLE (setBytesLE (setByte m off v) (off + 1) k (v / 256))
        (off + 1) k = v / 256 % 256 ^ k :=
      ih (by rw [length_setByte]; omega) (v / 256)
    rw [setBytesLE, getBytesLE, hlow, hrest, pow_succ, mul_comm (256 ^ k) 256,
      Nat.mod_mul]

theorem getBytesLE_congr {m1 m2 : Mem} {off n : Nat}
    (h : ∀ j, off ≤ j → j < off + n → getByte m1 j = getByte m2 j) :
    getBytesLE m1 off n = getBytesLE m2 off n := by
  induction n generalizing off with
  | zero => rfl
  | succ k ih =>
    rw [getBytesLE, getBytesLE, h off (by omega) (by omega),
      ih (fun j h1 h2 => h j (by omega) (by omega))]

theorem getBytesBE_congr {m1 m2 : Mem} {off n : Nat}
    (h : ∀ j, off ≤ j → j < off + n → getByte m1 j = getByte m2 j) :
    getBytesBE m1 off n = getBytesBE m2 off n := by
  induction n generalizing off with
  | zero => rfl
  | succ k ih =>
    rw [getBytesBE, getBytesBE, h (off + k) (by omega) (by omega),
      ih (fun j h1 h2 => h j (by omega) (by omega))]

theorem getBytesBE_setBytesBE {m : Mem} {off n : Nat} (h : off + n ≤ m.length)
    (v : Nat) : getBytesBE (setBytesBE m off n v) off n = v % 256 ^ n := by
  induction n generalizing m off v with
  | zero => simp [getBytesBE, Nat.mod_one]
  | succ k ih =>
    have hlow : getByte (setByte (setBytesBE m off k (v / 256)) (off + k) v)
        (off + k) = v % 256 :=
      getByte_setByte_self (by rw [length_setBytesBE]; omega) v
    have hrest : getBytesBE (setByte (setBytesBE m off k (v / 256)) (off + k) v)
        off k = v / 256 % 256 ^ k := by
      have hagree : getBytesBE (setByte (setBytesBE m off k (v / 256)) (off + k) v)
          off k = getBytesBE (setBytesBE m off k (v / 256)) off k :=
        getBytesBE_congr (fun j _ h2 => getByte_setByte_ne _ (by omega) v)
      rw [hagree, ih (by omega) (v / 256)]
    rw [setBytesBE, getBytesBE, hlow, hrest, pow_succ, mul_comm (256 ^ k) 256,
      Nat.mod_mul]
    ring

/-- Errors surfaced by the embedding: `typeErr` models a thrown `TypeError`
(the argument/configuration errors of the library), `rangeErr` a thrown
`RangeError` (propagated from the host byte-region primitives). -/
inductive JSErr
  | typeErr
  | rangeErr
deriving DecidableEq

/-- A byte region: the `(byteOffset, byteLength)` pair of a host `DataView`
or `Uint8Array` over an ambient buffer (the buffer itself is threaded
explicitly through the operations). -/
structure DV where
  off : Nat
  len : Nat
deriving DecidableEq

/-- Model of the host `new DataView(buffer, byteOffset?, byteLength?)`
constructor for integral arguments: a missing offset defaults to 0, a
missing length defaults to the remainder of the buffer, and the region must
lie inside the buffer or a `RangeError` is thrown. -/
def dataViewNew (bufLen : Nat) (byteOffset byteLength : Option Int) : Except JSErr DV :=
  let o := byteOffset.getD 0
  if o < 0 ∨ (bufLen : Int) < o then .error .rangeErr
  else
    match byteLength with
    | none => .ok ⟨o.toNat, bufLen - o.toNat⟩
    | some l =>
      if l < 0 ∨ (bufLen : Int) < o + l then .error .rangeErr
      else .ok ⟨o.toNat, l.toNat⟩

/-- Model of the host `new ArrayBuffer(len)` for an integral argument: a
fresh zero-filled buffer, or a `RangeError` for a negative length. -/
def arrayBufferNew (l : Int) : Except JSErr Mem :=
  if l < 0 then .error .rangeErr
  else .ok (List.replicate l.toNat 0)

/-- Model of the host `new Uint8Array(buffer, byteOffset, length)` for
integral arguments: the region must lie inside the whole buffer or a
`RangeError` is thrown. -/
def uint8ArrayNew (bufLen : Nat) (byteOffset byteLength : Int) : Except JSErr DV :=
  if byteOffset < 0 ∨ byteLength < 0 ∨ (bufLen : Int) < byteOffset + byteLength then
    .error .rangeErr
  else .ok ⟨byteOffset.toNat, byteLength.toNat⟩

/-- The constructor argument of `Struct`: the fields of the source object.
`buffer = some _` models a present (hence truthy) `.buffer` property;
`byteOffset`/`byteLength` are present-and-numeric when `some`. -/
structure StructSource where
  buffer : Option Mem
  byteOffset : Option Int
  byteLength : Option Int

/-- The argument passed to `new Struct(arg)`: either not an object (this
includes `null` and `undefined`), or an options object. -/
inductive StructArg
  | nonObject
  | obj (s : StructSource)

/-- Translation of the `Struct` constructor (`core.ts`): reject a
non-object argument; with a `.buffer`, wrap it in a DataView; otherwise
with a numeric `.byteLength`, allocate a fresh buffer of
`byteLength + (byteOffset ?? 0)` bytes and view it; otherwise reject.
Returns the bound region together with the backing buffer. -/
def structNew : StructArg → Except JSErr (DV × Mem)
  | .nonObject => .error .typeErr
  | .obj s =>
    match s.buffer with
    | some buf =>
      match dataViewNew buf.length s.byteOffset s.byteLength with
      | .error e => .error e
      | .ok dv => .ok (dv, buf)
    | none =>
      match s.byteLength with
      | some l =>
        match arrayBufferNew (l + s.byteOffset.getD 0) with
        | .error e => .error e
        | .ok fresh =>
          match dataViewNew fresh.length s.byteOffset (some l) with
          | .error e => .error e
          | .ok dv => .ok (dv, fresh)
      | none => .error .typeErr

/-- Translation of `structBytes` (`core.ts`): carve the subregion
`[start, stop)` of the given struct region out of the whole backing buffer
with `new Uint8Array(dv.buffer, dv.byteOffset + start, stop - start)`.
The `console.assert` calls in the source do not throw and impose nothing. -/
def structBytes (bufLen : Nat) (dv : DV) (start stop : Option Int) : Except JSErr DV :=
  let s := start.getD 0
  let e := stop.getD (dv.len : Int)
  uint8ArrayNew bufLen ((dv.off : Int) + s) (e - s)

/-- Translation of the `StructArray.length` getter (`core.ts`): the fixed
`length` if one was supplied to `defineArray`, else the JS division
`byteLength / byteStride` — note the source applies no flooring, so the
result is modeled as an exact rational. -/
def structArrayLength (dv : DV) (byteStride : Nat) (lengthOpt : Option Nat) : ℚ :=
  match lengthOpt with
  | some l => (l : ℚ)
  | none => (dv.len : ℚ) / (byteStride : ℚ)

/-- Translation of `StructArray.item` (`core.ts`): build the subregion
`[byteStride * index, byteStride * (index + 1))` with `structBytes` and hand
it (its buffer, byteOffset and byteLength) to the element struct
constructor.  The declared or computed array length is never consulted. -/
def structArrayItem (m : Mem) (dv : DV) (byteStride : Nat) (index : Int) :
    Except JSErr DV :=
  match structBytes m.length dv (some ((byteStride : Int) * index))
      (some ((byteStride : Int) * (index + 1))) with
  | .error e => .error e
  | .ok view =>
    match structNew (.obj ⟨some m, some (view.off : Int), some (view.len : Int)⟩) with
    | .error e => .error e
    | .ok inst => .ok inst.1

/-- Two-complement reinterpretation of an integer at `n` bits, the model of
`BigInt.asIntN` and of the signed `GetValueFromBuffer` interpretations. -/
def asIntN (n : Nat) (v : Int) : Int :=
  let r := v % ((2 : Int) ^ n)
  if r < (2 : Int) ^ (n - 1) then r else r - (2 : Int) ^ n

/-- The host `ToUintN`/`ToBigUintN` conversion: the nonnegative residue of
`v` mod `2^bits`, as a natural number. -/
def toUintN (bits : Nat) (v : Int) : Nat := (v % ((2 : Int) ^ bits)).toNat

/-- Translation of the `biguintle` factory (`fields.ts`): the
construction-time validation that `byteLength` is a positive integer
(`Number.isInteger` on the rational model is `den = 1`); on success the
descriptor is represented by its captured `(fieldOffset, byteLength)`
parameters. -/
def biguintleFactory (fieldOffset : Int) (byteLength : ℚ) :
    Except JSErr (Int × ℚ) :=
  if ¬(byteLength.den = 1) ∨ ¬(0 < byteLength) then .error .typeErr
  else .ok (fieldOffset, byteLength)

/-- Translation of the `bigintle` factory (`fields.ts`): it destructures
`byteLength` and returns the descriptor with no validation whatsoever. -/
def bigintleFactory (offset : Int) (byteLength : ℚ) :
    Except JSErr (Int × ℚ) :=
  .ok (offset, byteLength)

/-- Model of the host `DataView.prototype.getUintN` / `getBigUint64`
methods: read `n` bytes at `fieldOffset` (relative to the view) in the given
byte order as an unsigned integer. -/
def dvGetUint (m : Mem) (dv : DV) (fieldOffset n : Nat) (littleEndian : Bool) : Nat :=
  if littleEndian then getBytesLE m (dv.off + fieldOffset) n
  else getBytesBE m (dv.off + fieldOffset) n

/-- Model of the host `DataView.prototype.setUintN` / `setBigUint64`
methods: convert the operand with `ToUintN` and store its `n` bytes in the
given byte order. -/
def dvSetUint (m : Mem) (dv : DV) (fieldOffset n : Nat) (littleEndian : Bool) (v : Int) : Mem :=
  if littleEndian then setBytesLE m (dv.off + fieldOffset) n (toUintN (8 * n) v)
  else setBytesBE m (dv.off + fieldOffset) n (toUintN (8 * n) v)

/-- Model of the host `DataView.prototype.getIntN` / `getBigInt64` methods:
the raw bytes reinterpreted in two-complement. -/
def dvGetInt (m : Mem) (dv : DV) (fieldOffset n : Nat) (littleEndian : Bool) : Int :=
  asIntN (8 * n) (dvGetUint m dv fieldOffset n littleEndian)

/-- Model of the host `DataView.prototype.setIntN` / `setBigInt64` methods:
`ToIntN` followed by the two-complement raw bytes stores exactly the bytes
of the `ToUintN` residue, so the stored state coincides with `dvSetUint`. -/
def dvSetInt (m : Mem) (dv : DV) (fieldOffset n : Nat) (littleEndian : Bool) (v : Int) : Mem :=
  dvSetUint m dv fieldOffset n littleEndian v

/-- Translation of the `u8` field getter: `getUint8(fieldOffset)`. -/
def u8Get (fieldOffset : Nat) (dv : DV) (m : Mem) : Int :=
  (dvGetUint m dv fieldOffset 1 true : Nat)

/-- Translation of the `u8` field setter: `setUint8(fieldOffset, value)`. -/
def u8Set (fieldOffset : Nat) (dv : DV) (v : Int) (m : Mem) : Mem :=
  dvSetUint m dv fieldOffset 1 true v

/-- Translation of the `u16` field getter: `getUint16(fieldOffset, true)`. -/
def u16Get (fieldOffset : Nat) (dv : DV) (m : Mem) : Int :=
  (dvGetUint m dv fieldOffset 2 true : Nat)

/-- Translation of the `u16` field setter: `setUint16(fieldOffset, value, true)`. -/
def u16Set (fieldOffset : Nat) (dv : DV) (v : Int) (m : Mem) : Mem :=
  dvSetUint m dv fieldOffset 2 true v

/-- Translation of the `u32` field getter: `getUint32(fieldOffset, true)`. -/
def u32Get (fieldOffset : Nat) (dv : DV) (m : Mem) : Int :=
  (dvGetUint m dv fieldOffset 4 true : Nat)

/-- Translation of the `u32` field setter: `setUint32(fieldOffset, value, true)`. -/
def u32Set (fieldOffset : Nat) (dv : DV) (v : Int) (m : Mem) : Mem :=
  dvSetUint m dv fieldOffset 4 true v

/-- Translation of the `u64` field getter: `getBigUint64(fieldOffset, true)`. -/
def u64Get (fieldOffset : Nat) (dv : DV) (m : Mem) : Int :=
  (dvGetUint m dv fieldOffset 8 true : Nat)

/-- Translation of the `u64` field setter: `setBigUint64(fieldOffset, value, true)`. -/
def u64Set (fieldOffset : Nat) (dv : DV) (v : Int) (m : Mem) : Mem :=
  dvSetUint m dv fieldOffset 8 true v

/-- Translation of the `i8` field getter: `getInt8(fieldOffset)`. -/
def i8Get (fieldOffset : Nat) (dv : DV) (m : Mem) : Int :=
  dvGetInt m dv fieldOffset 1 true

/-- Translation of the `i8` field setter: `setInt8(fieldOffset, value)`. -/
def i8Set (fieldOffset : Nat) (dv : DV) (v : Int) (m : Mem) : Mem :=
  dvSetInt m dv fieldOffset 1 true v

/-- Translation of the `i16` field getter: `getInt16(fieldOffset, true)`. -/
def i16Get (fieldOffset : Nat) (dv : DV) (m : Mem) : Int :=
  dvGetInt m dv fieldOffset 2 true

/-- Translation of the `i16` field setter: `setInt16(fieldOffset, value, true)`. -/
def i16Set (fieldOffset : Nat) (dv : DV) (v : Int) (m : Mem) : Mem :=
  dvSetInt m dv fieldOffset 2 true v

/-- Translation of the `i32` field getter: `getInt32(fieldOffset, true)`. -/
def i32Get (fieldOffset : Nat) (dv : DV) (m : Mem) : Int :=
  dvGetInt m dv fieldOffset 4 true

/-- Translation of the `i32` field setter: `setInt32(fieldOffset, value, true)`. -/
def i32Set (fieldOffset : Nat) (dv : DV) (v : Int) (m : Mem) : Mem :=
  dvSetInt m dv fieldOffset 4 true v

/-- Translation of the `i64` field getter: `getBigInt64(fieldOffset, true)`. -/
def i64Get (fieldOffset : Nat) (dv : DV) (m : Mem) : Int :=
  dvGetInt m dv fieldOffset 8 true

/-- Translation of the `i64` field setter: `setBigInt64(fieldOffset, value, true)`. -/
def i64Set (fieldOffset : Nat) (dv : DV) (v : Int) (m : Mem) : Mem :=
  dvSetInt m dv fieldOffset 8 true v

/-- Translation of the `u16be` field getter: `getUint16(fieldOffset, false)`. -/
def u16beGet (fieldOffset : Nat) (dv : DV) (m : Mem) : Int :=
  (dvGetUint m dv fieldOffset 2 false : Nat)

/-- Translation of the `u16be` field setter: `setUint16(fieldOffset, value, false)`. -/
def u16beSet (fieldOffset : Nat) (dv : DV) (v : Int) (m : Mem) : Mem :=
  dvSetUint m dv fieldOffset 2 false v

/-- Translation of the `u32be` field getter: `getUint32(fieldOffset, false)`. -/
def u32beGet (fieldOffset : Nat) (dv : DV) (m : Mem) : Int :=
  (dvGetUint m dv fieldOffset 4 false : Nat)

/-- Translation of the `u32be` field setter: `setUint32(fieldOffset, value, false)`. -/
def u32beSet (fieldOffset : Nat) (dv : DV) (v : Int) (m : Mem) : Mem :=
  dvSetUint m dv fieldOffset 4 false v

/-- Translation of the `u64be` field getter: `getBigUint64(fieldOffset, false)`. -/
def u64beGet (fieldOffset : Nat) (dv : DV) (m : Mem) : Int :=
  (dvGetUint m dv fieldOffset 8 false : Nat)

/-- Translation of the `u64be` field setter: `setBigUint64(fieldOffset, value, false)`. -/
def u64beSet (fieldOffset : Nat) (dv : DV) (v : Int) (m : Mem) : Mem :=
  dvSetUint m dv fieldOffset 8 false v

/-- Translation of the `i16be` field getter: `getInt16(fieldOffset, false)`. -/
def i16beGet (fieldOffset : Nat) (dv : DV) (m : Mem) : Int :=
  dvGetInt m dv fieldOffset 2 false

/-- Translation of the `i16be` field setter: `setInt16(fieldOffset, value, false)`. -/
def i16beSet (fieldOffset : Nat) (dv : DV) (v : Int) (m : Mem) : Mem :=
  dvSetInt m dv fieldOffset 2 false v

/-- Translation of the `i32be` field getter: `getInt32(fieldOffset, false)`. -/
def i32beGet (fieldOffset : Nat) (dv : DV) (m : Mem) : Int :=
  dvGetInt m dv fieldOffset 4 false

/-- Translation of the `i32be` field setter: `setInt32(fieldOffset, value, false)`. -/
def i32beSet (fieldOffset : Nat) (dv : DV) (v : Int) (m : Mem) : Mem :=
  dvSetInt m dv fieldOffset 4 false v

/-- Translation of the `i64be` field getter: `getBigInt64(fieldOffset, false)`. -/
def i64beGet (fieldOffset : Nat) (dv : DV) (m : Mem) : Int :=
  dvGetInt m dv fieldOffset 8 false

/-- Translation of the `i64be` field setter: `setBigInt64(fieldOffset, value, false)`. -/
def i64beSet (fieldOffset : Nat) (dv : DV) (v : Int) (m : Mem) : Mem :=
  dvSetInt m dv fieldOffset 8 false v

/-- Translation of the `biguintle` getter loop: starting from `0n`,
or in `getUint8(fieldOffset + i)` shifted left by `8 * i` bits, for
`i = 0 .. byteLength - 1`. -/
def biguintleGet (fieldOffset byteLength : Nat) (dv : DV) (m : Mem) : Int :=
  (((List.range byteLength).foldl
    (fun result i => result ||| (getByte m (dv.off + (fieldOffset + i)) <<< (8 * i)))
    0 : Nat) : Int)

/-- Translation of the `biguintle`/`bigintle` setter loop:
`setUint8(fieldOffset + i, Number((value >> BigInt(8 * i)) & 0xff))` for
`i = 0 .. byteLength - 1`; BigInt `>>` is an arithmetic shift (floor
division by a power of two) and `& 0xff` is the nonnegative residue
mod 256. -/
def biguintleSet (fieldOffset byteLength : Nat) (dv : DV) (v : Int) (m : Mem) : Mem :=
  (List.range byteLength).foldl
    (fun mem i => setByte mem (dv.off + (fieldOffset + i))
      ((v / (2 : Int) ^ (8 * i) % 256).toNat))
    m

/-- Translation of the `bigintle` getter: the same loop as `biguintleGet`
followed by `BigInt.asIntN(byteLength * 8, result)`. -/
def bigintleGet (offset byteLength : Nat) (dv : DV) (m : Mem) : Int :=
  asIntN (byteLength * 8) (biguintleGet offset byteLength dv m)

/-- Translation of the `bigintle` setter: the identical byte-splitting loop
as `biguintleSet`. -/
def bigintleSet (offset byteLength : Nat) (dv : DV) (v : Int) (m : Mem) : Mem :=
  biguintleSet offset byteLength dv v m

/-- Translation of the `bool` getter: `Boolean(getUint8(fieldOffset))`. -/
def boolGet (fieldOffset : Nat) (dv : DV) (m : Mem) : Bool :=
  if dvGetUint m dv fieldOffset 1 true = 0 then false else true

/-- Translation of the `bool` setter: `setUint8(fieldOffset, value ? 1 : 0)`. -/
def boolSet (fieldOffset : Nat) (dv : DV) (v : Bool) (m : Mem) : Mem :=
  dvSetUint m dv fieldOffset 1 true (if v then 1 else 0)

theorem lor_disjoint (a b k : Nat) (h : a < 2 ^ k) :
    a ||| (b <<< k) = a + b * 2 ^ k := by
  apply Nat.eq_of_testBit_eq
  intro i
  rw [Nat.testBit_lor, Nat.testBit_shiftLeft]
  by_cases hik : k ≤ i
  · have ha : a.testBit i = false :=
      Nat.testBit_eq_false_of_lt (lt_of_lt_of_le h (Nat.pow_le_pow_right (by norm_num) hik))
    have hdiv : (a + b * 2 ^ k) / 2 ^ i = b / 2 ^ (i - k) := by
      have h1 : (a + b * 2 ^ k) / 2 ^ k = b := by
        rw [Nat.add_mul_div_right _ _ (Nat.pos_pow_of_pos k (by norm_num)),
          Nat.div_eq_of_lt h, Nat.zero_add]
      have h2 : (2 : Nat) ^ i = 2 ^ k * 2 ^ (i - k) := by
        rw [← pow_add]
        congr 1
        omega
      rw [h2, ← Nat.div_div_eq_div_mul, h1]
    rw [ha, Bool.false_or, Nat.testBit_to_div_mod, Nat.testBit_to_div_mod, hdiv]
    simp [hik]
  · have hmod : (a + b * 2 ^ k) % 2 ^ k = a := by
      rw [Nat.add_mul_mod_self_right, Nat.mod_eq_of_lt h]
    have hbit := Nat.testBit_mod_two_pow (a + b * 2 ^ k) k i
    rw [hmod] at hbit
    rw [hbit]
    simp [hik, Nat.lt_of_not_le hik]

theorem getBytesLE_succ_last (m : Mem) (off n : Nat) :
    getBytesLE m off (n + 1) = getBytesLE m off n + getByte m (off + n) * 256 ^ n := by
  induction n generalizing off with
  | zero => simp [getBytesLE]
  | succ k ih =>
    have lhs : getBytesLE m off (k + 1 + 1)
        = getByte m off + 256 * getBytesLE m (off + 1) (k + 1) := rfl
    have rhs : getBytesLE m off (k + 1)
        = getByte m off + 256 * getBytesLE m (off + 1) k := rfl
    rw [lhs, rhs, ih (off + 1)]
    have h1 : off + 1 + k = off + (k + 1) := by omega
    rw [h1, pow_succ]
    ring

theorem getBytesLE_lt {m : Mem} (hm : MemOk m) (off n : Nat) :
    getBytesLE m off n < 256 ^ n := by
  induction n generalizing off with
  | zero => simp [getBytesLE]
  | succ k ih =>
    rw [getBytesLE, pow_succ]
    have h1 := getByte_lt hm off
    have h2 := ih (off + 1)
    omega

theorem biguintleGet_eq {m : Mem} (hm : MemOk m) (fieldOffset byteLength : Nat) (dv : DV) :
    biguintleGet fieldOffset byteLength dv m
      = ((getBytesLE m (dv.off + fieldOffset) byteLength : Nat) : Int) := by
  unfold biguintleGet
  norm_cast
  induction byteLength with
  | zero => simp [getBytesLE]
  | succ k ih =>
    rw [List.range_succ, List.foldl_append, List.foldl_cons, List.foldl_nil, ih,
      getBytesLE_succ_last]
    have hb : getBytesLE m (dv.off + fieldOffset) k < 2 ^ (8 * k) := by
      have := getBytesLE_lt hm (dv.off + fieldOffset) k
      have h256 : (256 : Nat) ^ k = 2 ^ (8 * k) := by
        rw [show (256 : Nat) = 2 ^ 8 from rfl, ← pow_mul]
      omega
    rw [lor_disjoint _ _ _ hb]
    have h256 : (256 : Nat) ^ k = 2 ^ (8 * k) := by
      rw [show (256 : Nat) = 2 ^ 8 from rfl, ← pow_mul]
    rw [h256]
    have : dv.off + (fieldOffset + k) = dv.off + fieldOffset + k := by omega
    rw [this]

theorem getByte_eq_zero_of_le {m : Mem} {j : Nat} (h : m.length ≤ j) : getByte m j = 0 := by
  induction m generalizing j with
  | nil => rfl
  | cons b bs ih =>
    cases j with
    | zero => simp at h
    | succ i => exact ih (by simpa using h)

theorem mem_ext {m1 m2 : Mem} (hlen : m1.length = m2.length)
    (h : ∀ j, getByte m1 j = getByte m2 j) : m1 = m2 := by
  induction m1 generalizing m2 with
  | nil => cases m2 with
    | nil => rfl
    | cons b bs => simp at hlen
  | cons b bs ih =>
    cases m2 with
    | nil => simp at hlen
    | cons c cs =>
      have hb : b = c := h 0
      have hrest : bs = cs := by
        refine ih (by simpa using hlen) (fun j => ?_)
        exact h (j + 1)
      rw [hb, hrest]

theorem getByte_setBytesLE_in {m : Mem} {off n w j : Nat} (hbound : off + n ≤ m.length)
    (h1 : off ≤ j) (h2 : j < off + n) :
    getByte (setBytesLE m off n w) j = w / 256 ^ (j - off) % 256 := by
  induction n generalizing m off w with
  | zero => omega
  | succ k ih =>
    show getByte (setBytesLE (setByte m off w) (off + 1) k (w / 256)) j = _
    by_cases hj : j = off
    · subst hj
      rw [getByte_setBytesLE_frame _ _ _ _ (Or.inl (by omega)),
        getByte_setByte_self (by omega) w]
      simp
    · rw [ih (m := setByte m off w) (by rw [length_setByte]; omega) (by omega) (by omega)]
      rw [Nat.div_div_eq_div_mul]
      have hpow : 256 * 256 ^ (j - (off + 1)) = 256 ^ (j - off) := by
        have hj1 : j - off = (j - (off + 1)) + 1 := by omega
        rw [hj1, pow_succ]
        ring
      rw [hpow]

theorem length_foldl_setByte (l : List Nat) (g b : Nat → Nat) (m : Mem) :
    (l.foldl (fun mem i => setByte mem (g i) (b i)) m).length = m.length := by
  induction l generalizing m with
  | nil => rfl
  | cons a t ih => rw [List.foldl_cons, ih, length_setByte]

theorem length_biguintleSet (fieldOffset byteLength : Nat) (dv : DV) (v : Int) (m : Mem) :
    (biguintleSet fieldOffset byteLength dv v m).length = m.length :=
  length_foldl_setByte (List.range byteLength) _ _ m

theorem getByte_biguintleSet (fieldOffset byteLength : Nat) (dv : DV) (v : Int) (m : Mem)
    (j : Nat) :
    getByte (biguintleSet fieldOffset byteLength dv v m) j
      = if dv.off + fieldOffset ≤ j ∧ j < dv.off + fieldOffset + byteLength ∧ j < m.length
        then (v / (2 : Int) ^ (8 * (j - (dv.off + fieldOffset))) % 256).toNat
        else getByte m j := by
  induction byteLength with
  | zero =>
    have : ∀ j0, ¬(dv.off + fieldOffset ≤ j0 ∧ j0 < dv.off + fieldOffset + 0 ∧
        j0 < m.length) := by omega
    simp only [biguintleSet, List.range_zero, List.foldl_nil, this, if_false]
  | succ k ih =>
    have hstep : biguintleSet fieldOffset (k + 1) dv v m
        = setByte (biguintleSet fieldOffset k dv v m) (dv.off + (fieldOffset + k))
          ((v / (2 : Int) ^ (8 * k) % 256).toNat) := by
      unfold biguintleSet
      rw [List.range_succ, List.foldl_append, List.foldl_cons, List.foldl_nil]
    rw [hstep]
    by_cases hjk : j = dv.off + (fieldOffset + k)
    · subst hjk
      by_cases hlen : dv.off + (fieldOffset + k) < m.length
      · rw [getByte_setByte_self (by rw [length_biguintleSet]; omega) _]
        have hcond : dv.off + fieldOffset ≤ dv.off + (fieldOffset + k) ∧
            dv.off + (fieldOffset + k) < dv.off + fieldOffset + (k + 1) ∧
            dv.off + (fieldOffset + k) < m.length := by omega
        rw [if_pos hcond]
        have hk : dv.off + (fieldOffset + k) - (dv.off + fieldOffset) = k := by omega
        rw [hk]
        have hlt : (v / (2 : Int) ^ (8 * k) % 256).toNat < 256 := by
          have h0 : (0 : Int) ≤ v / (2 : Int) ^ (8 * k) % 256 :=
            Int.emod_nonneg _ (by norm_num)
          have h1 : v / (2 : Int) ^ (8 * k) % 256 < 256 :=
            Int.emod_lt_of_pos _ (by norm_num)
          omega
        exact Nat.mod_eq_of_lt hlt
      · have hge : m.length ≤ dv.off + (fieldOffset + k) := by omega
        rw [getByte_eq_zero_of_le (by rw [length_setByte, length_biguintleSet]; omega)]
        have hcond : ¬(dv.off + fieldOffset ≤ dv.off + (fieldOffset + k) ∧
            dv.off + (fieldOffset + k) < dv.off + fieldOffset + (k + 1) ∧
            dv.off + (fieldOffset + k) < m.length) := by omega
        rw [if_neg hcond, getByte_eq_zero_of_le hge]
    · rw [getByte_setByte_ne _ (fun h => hjk h.symm) _, ih]
      by_cases hin : dv.off + fieldOffset ≤ j ∧ j < dv.off + fieldOffset + k ∧ j < m.length
      · rw [if_pos hin, if_pos (by omega)]
      · rw [if_neg hin, if_neg (by omega)]

theorem emod_pow_div_emod (v : Int) {L i : Nat} (h : i < L) :
    v % (2 : Int) ^ (8 * L) / (2 : Int) ^ (8 * i) % 256 = v / (2 : Int) ^ (8 * i) % 256 := by
  have hsplit : (2 : Int) ^ (8 * L) = 2 ^ (8 * i) * 2 ^ (8 * L - 8 * i) := by
    rw [← pow_add]
    congr 1
    omega
  rw [Int.emod_def v ((2 : Int) ^ (8 * L)), hsplit]
  have h2 : v - 2 ^ (8 * i) * 2 ^ (8 * L - 8 * i) * (v / (2 ^ (8 * i) * 2 ^ (8 * L - 8 * i)))
      = v + -(2 ^ (8 * L - 8 * i) * (v / (2 ^ (8 * i) * 2 ^ (8 * L - 8 * i)))) * 2 ^ (8 * i) := by
    ring
  rw [h2, Int.add_mul_ediv_right _ _ (by positivity)]
  have h3 : -((2 : Int) ^ (8 * L - 8 * i) * (v / (2 ^ (8 * i) * 2 ^ (8 * L - 8 * i))))
      = 256 * -((2 : Int) ^ (8 * L - 8 * i - 8) * (v / (2 ^ (8 * i) * 2 ^ (8 * L - 8 * i)))) := by
    have hp : (2 : Int) ^ (8 * L - 8 * i) = 256 * 2 ^ (8 * L - 8 * i - 8) := by
      rw [show (256 : Int) = 2 ^ 8 from rfl, ← pow_add]
      congr 1
      omega
    rw [hp]
    ring
  rw [h3, Int.add_mul_emod_self_left]

theorem biguintleSet_eq (fieldOffset byteLength : Nat) (dv : DV) (v : Int) (m : Mem)
    (hbound : dv.off + fieldOffset + byteLength ≤ m.length) :
    biguintleSet fieldOffset byteLength dv v m
      = setBytesLE m (dv.off + fieldOffset) byteLength (toUintN (8 * byteLength) v) := by
  apply mem_ext
  · rw [length_biguintleSet, length_setBytesLE]
  intro j
  rw [getByte_biguintleSet]
  by_cases hin : dv.off + fieldOffset ≤ j ∧ j < dv.off + fieldOffset + byteLength ∧
      j < m.length
  · rw [if_pos hin,
      getByte_setBytesLE_in hbound (by omega) (by omega)]
    set i := j - (dv.off + fieldOffset) with hidef
    have hiL : i < byteLength := by omega
    unfold toUintN
    have hnn : (0 : Int) ≤ v % (2 : Int) ^ (8 * byteLength) :=
      Int.emod_nonneg _ (by positivity)
    have hcast : (((v % (2 : Int) ^ (8 * byteLength)).toNat / 256 ^ i % 256 : Nat) : Int)
        = v / (2 : Int) ^ (8 * i) % 256 := by
      push_cast
      rw [Int.toNat_of_nonneg hnn]
      have h256 : ((256 : Int) ^ i) = (2 : Int) ^ (8 * i) := by
        rw [show (256 : Int) = 2 ^ 8 from rfl, ← pow_mul]
      rw [h256]
      exact emod_pow_div_emod v hiL
    have := congrArg Int.toNat hcast
    rw [Int.toNat_ofNat] at this
    · rw [← this]
  · rw [if_neg hin]
    by_cases hlen : j < m.length
    · rw [getByte_setBytesLE_frame _ _ _ _ (by omega)]
    · have hL : (setBytesLE m (dv.off + fieldOffset) byteLength
          (toUintN (8 * byteLength) v)).length ≤ j := by
        rw [length_setBytesLE]
        omega
      rw [getByte_eq_zero_of_le hL, getByte_eq_zero_of_le (le_of_not_lt hlen)]

theorem asIntN_emod (n : Nat) (v : Int) : asIntN n (v % (2 : Int) ^ n) = asIntN n v := by
  unfold asIntN
  rw [Int.emod_emod_of_dvd _ dvd_rfl]

theorem asIntN_eq_self {n : Nat} {v : Int} (hn : 1 ≤ n)
    (h1 : -((2 : Int) ^ (n - 1)) ≤ v) (h2 : v < (2 : Int) ^ (n - 1)) :
    asIntN n v = v := by
  have hp : (0 : Int) < 2 ^ (n - 1) := by positivity
  have hsplit : (2 : Int) ^ n = 2 ^ (n - 1) * 2 := by
    rw [← pow_succ]
    congr 1
    omega
  unfold asIntN
  rcases le_or_lt 0 v with hv | hv
  · rw [Int.emod_eq_of_lt hv (by omega)]
    exact if_pos h2
  · have hbig : v % (2 : Int) ^ n = v + 2 ^ n := by
      have hmod : (v + 2 ^ n) % (2 : Int) ^ n = v % (2 : Int) ^ n := by
        conv_lhs => rw [show v + (2 : Int) ^ n = v + 2 ^ n * 1 by ring]
        rw [Int.add_mul_emod_self_left]
      rw [← hmod, Int.emod_eq_of_lt (by omega) (by omega)]
    rw [hbig, if_neg (by omega)]
    ring

theorem asIntN_bounds (n : Nat) (v : Int) (hn : 1 ≤ n) :
    -((2 : Int) ^ (n - 1)) ≤ asIntN n v ∧ asIntN n v < (2 : Int) ^ (n - 1) := by
  unfold asIntN
  have hsplit : (2 : Int) ^ n = 2 ^ (n - 1) * 2 := by
    rw [← pow_succ]
    congr 1
    omega
  have hnn : (0 : Int) ≤ v % (2 : Int) ^ n := Int.emod_nonneg _ (by positivity)
  have hlt : v % (2 : Int) ^ n < 2 ^ n := Int.emod_lt_of_pos _ (by positivity)
  by_cases hc : v % (2 : Int) ^ n < 2 ^ (n - 1)
  · rw [if_pos hc]
    constructor
    · have : (0 : Int) ≤ 2 ^ (n - 1) := by positivity
      omega
    · exact hc
  · rw [if_neg hc]
    push_neg at hc
    constructor
    · omega
    · omega

/-- C1 evaluation at the failing input: an array type with byteStride 3 and no
fixed count, bound to a 7-byte region, reports the non-integer length `7 / 3`
rather than `⌊7 / 3⌋ = 2` — the `length` getter divides without flooring. -/
theorem structArrayLength_not_floored :
    structArrayLength ⟨0, 7⟩ 3 none = 7 / 3 ∧ structArrayLength ⟨0, 7⟩ 3 none ≠ 2 := by
  refine ⟨by norm_num [structArrayLength], by norm_num [structArrayLength]⟩

/-- C2 counterexample: at offset 0 with `byteLength = 0` (not a positive
integer) the `bigintle` factory does not throw a configuration error — it
returns a descriptor — although the sibling `biguintle` factory throws. -/
theorem bigintleFactory_skips_validation :
    bigintleFactory 0 0 = .ok (0, 0) ∧ biguintleFactory 0 0 = .error .typeErr := by
  constructor
  · rfl
  · unfold biguintleFactory
    norm_num

/-- C2 (amended): construction-time validation of `byteLength` happens in
`biguintle` only, which throws a configuration error exactly when
`byteLength` is not a positive integer; `bigintle` never throws at
codec-construction time. -/
theorem bigFactories_validation (fieldOffset : Int) (byteLength : ℚ) :
    (biguintleFactory fieldOffset byteLength = .error .typeErr
        ↔ ¬(byteLength.den = 1 ∧ 0 < byteLength))
      ∧ bigintleFactory fieldOffset byteLength = .ok (fieldOffset, byteLength) := by
  refine ⟨?_, rfl⟩
  unfold biguintleFactory
  by_cases h : ¬(byteLength.den = 1) ∨ ¬(0 < byteLength)
  · rw [if_pos h]
    simp only [true_iff]
    tauto
  · rw [if_neg h]
    simp only [reduceCtorEq, false_iff]
    tauto

theorem dataViewNew_not_typeErr (bufLen : Nat) (o l : Option Int) :
    (∃ d, dataViewNew bufLen o l = .ok d) ∨ dataViewNew bufLen o l = .error .rangeErr := by
  unfold dataViewNew
  by_cases h1 : o.getD 0 < 0 ∨ (bufLen : Int) < o.getD 0
  · rw [if_pos h1]
    exact Or.inr rfl
  · rw [if_neg h1]
    cases l with
    | none => exact Or.inl ⟨_, rfl⟩
    | some lv =>
      dsimp only
      by_cases h2 : lv < 0 ∨ (bufLen : Int) < o.getD 0 + lv
      · rw [if_pos h2]
        exact Or.inr rfl
      · rw [if_neg h2]
        exact Or.inl ⟨_, rfl⟩

/-- C8: constructing a `Struct` throws an argument error exactly when the
argument is not an object, or when it supplies neither a buffer nor a
numeric byte length (in particular when only a byte offset is given); any
object argument with a buffer or a numeric byte length either yields an
instance or propagates a range error. -/
theorem structNew_ok_or_range {s : StructSource}
    (hsome : s.buffer.isSome ∨ s.byteLength.isSome) :
    (∃ r, structNew (.obj s) = .ok r) ∨ structNew (.obj s) = .error .rangeErr := by
  cases hb : s.buffer with
  | some buf =>
    rcases dataViewNew_not_typeErr buf.length s.byteOffset s.byteLength with ⟨d, hd⟩ | hd
    · exact Or.inl ⟨(d, buf), by simp [structNew, hb, hd]⟩
    · exact Or.inr (by simp [structNew, hb, hd])
  | none =>
    cases hl : s.byteLength with
    | some l =>
      by_cases hneg : l + s.byteOffset.getD 0 < 0
      · refine Or.inr ?_
        simp [structNew, hb, hl, arrayBufferNew, hneg]
      · rcases dataViewNew_not_typeErr (l + s.byteOffset.getD 0).toNat
            s.byteOffset (some l) with ⟨d, hd⟩ | hd
        · refine Or.inl ⟨(d, List.replicate (l + s.byteOffset.getD 0).toNat 0), ?_⟩
          simp [structNew, hb, hl, arrayBufferNew, hneg, hd]
        · refine Or.inr ?_
          simp [structNew, hb, hl, arrayBufferNew, hneg, hd]
    | none =>
      rw [hb, hl] at hsome
      simp at hsome

/-- C8: constructing a `Struct` throws an argument error exactly when the
argument is not an object, or when it supplies neither a buffer nor a
numeric byte length (in particular when only a byte offset is given); any
object argument with a buffer or with a numeric byte length either yields
an instance or propagates a range error. -/
theorem structNew_argError_iff (arg : StructArg) :
    (structNew arg = .error .typeErr ↔
      (arg = .nonObject ∨ ∃ s, arg = .obj s ∧ s.buffer = none ∧ s.byteLength = none))
    ∧ (∀ s, arg = .obj s → (s.buffer.isSome ∨ s.byteLength.isSome) →
        (∃ r, structNew arg = .ok r) ∨ structNew arg = .error .rangeErr) := by
  cases arg with
  | nonObject =>
    refine ⟨iff_of_true rfl (Or.inl rfl), ?_⟩
    intro s hs
    exact absurd hs (by simp)
  | obj s =>
    refine ⟨?_, ?_⟩
    · by_cases hnb : s.buffer = none ∧ s.byteLength = none
      · refine iff_of_true ?_ (Or.inr ⟨s, rfl, hnb.1, hnb.2⟩)
        simp [structNew, hnb.1, hnb.2]
      · have hsome : s.buffer.isSome ∨ s.byteLength.isSome := by
          cases hbb : s.buffer with
          | some _ => exact Or.inl (by simp)
          | none =>
            cases hll : s.byteLength with
            | some _ => exact Or.inr (by simp)
            | none => exact absurd ⟨hbb, hll⟩ hnb
        refine iff_of_false ?_ ?_
        · rcases structNew_ok_or_range hsome with ⟨r, hr⟩ | hr
          · rw [hr]
            simp
          · rw [hr]
            simp
        · rintro (h | ⟨s2, hs2, hbuf, hlen⟩)
          · exact absurd h (by simp)
          · injection hs2 with h
            subst h
            exact hnb ⟨hbuf, hlen⟩
    · intro s2 hs2 hsome
      injection hs2 with h
      subst h
      exact structNew_ok_or_range hsome

/-- C8 witness: the constructor applied to concrete failing and succeeding
arguments through `structNew_argError_iff`. -/
theorem structNew_argError_iff_witness :
    structNew (.obj ⟨none, some 1, none⟩) = .error .typeErr ∧
      ((∃ r, structNew (.obj ⟨some [0, 0], none, none⟩) = .ok r) ∨
        structNew (.obj ⟨some [0, 0], none, none⟩) = .error .rangeErr) :=
  ⟨(structNew_argError_iff (.obj ⟨none, some 1, none⟩)).1.mpr
      (Or.inr ⟨_, rfl, rfl, rfl⟩),
    (structNew_argError_iff (.obj ⟨some [0, 0], none, none⟩)).2 _ rfl (Or.inl rfl)⟩

theorem getBytesLE_one (m : Mem) (off : Nat) : getBytesLE m off 1 = getByte m off := by
  simp [getBytesLE]

/-- C9: `item(index)` never consults the declared or computed array length:
it succeeds exactly when the sub-region `[index*stride, (index+1)*stride)`
lies inside the backing buffer (returning a view of exactly those bytes, so
byte reads through the view land at that position), and fails with the
propagated range error of the byte-region construction otherwise. -/
theorem structArrayItem_spec (m : Mem) (dv : DV) (byteStride : Nat) (index : Int) :
    ((0 ≤ (dv.off : Int) + (byteStride : Int) * index ∧
        (dv.off : Int) + (byteStride : Int) * index + (byteStride : Int) ≤ (m.length : Int)) →
      structArrayItem m dv byteStride index
        = .ok ⟨((dv.off : Int) + (byteStride : Int) * index).toNat, byteStride⟩)
    ∧ (¬(0 ≤ (dv.off : Int) + (byteStride : Int) * index ∧
        (dv.off : Int) + (byteStride : Int) * index + (byteStride : Int) ≤ (m.length : Int)) →
      structArrayItem m dv byteStride index = .error .rangeErr)
    ∧ (∀ j : Nat, u8Get j ⟨((dv.off : Int) + (byteStride : Int) * index).toNat, byteStride⟩ m
        = (getByte m ((((dv.off : Int) + (byteStride : Int) * index).toNat) + j) : Nat)) := by
  have harith : (byteStride : Int) * (index + 1) - (byteStride : Int) * index
      = (byteStride : Int) := by ring
  have hsb : structBytes m.length dv (some ((byteStride : Int) * index))
      (some ((byteStride : Int) * (index + 1)))
      = uint8ArrayNew m.length ((dv.off : Int) + (byteStride : Int) * index)
        (byteStride : Int) := by
    show uint8ArrayNew m.length ((dv.off : Int) + (byteStride : Int) * index)
        ((byteStride : Int) * (index + 1) - (byteStride : Int) * index) = _
    rw [harith]
  refine ⟨?_, ?_, ?_⟩
  · rintro ⟨h1, h2⟩
    have hu : uint8ArrayNew m.length ((dv.off : Int) + (byteStride : Int) * index)
        (byteStride : Int)
        = .ok ⟨((dv.off : Int) + (byteStride : Int) * index).toNat, byteStride⟩ := by
      unfold uint8ArrayNew
      rw [if_neg (by push_neg; exact ⟨by omega, by positivity, by omega⟩)]
      simp
    have htn : (((((dv.off : Int) + (byteStride : Int) * index).toNat : Nat) : Int))
        = (dv.off : Int) + (byteStride : Int) * index := Int.toNat_of_nonneg h1
    have hsn : structNew (.obj ⟨some m,
        some ((((dv.off : Int) + (byteStride : Int) * index).toNat : Nat) : Int),
        some ((byteStride : Nat) : Int)⟩)
        = .ok (⟨((dv.off : Int) + (byteStride : Int) * index).toNat, byteStride⟩, m) := by
      have hdvn : dataViewNew m.length
          (some ((((dv.off : Int) + (byteStride : Int) * index).toNat : Nat) : Int))
          (some ((byteStride : Nat) : Int))
          = .ok ⟨((dv.off : Int) + (byteStride : Int) * index).toNat, byteStride⟩ := by
        unfold dataViewNew
        rw [if_neg (by dsimp only [Option.getD]; omega)]
        dsimp only [Option.getD]
        rw [if_neg (by omega)]
        rw [Int.toNat_natCast, Int.toNat_natCast]
      show (match dataViewNew m.length
          (some ((((dv.off : Int) + (byteStride : Int) * index).toNat : Nat) : Int))
          (some ((byteStride : Nat) : Int)) with
        | Except.error e => (Except.error e : Except JSErr (DV × Mem))
        | Except.ok dv0 => Except.ok (dv0, m)) = _
      rw [hdvn]
    unfold structArrayItem
    rw [hsb, hu]
    dsimp only
    rw [hsn]
  · intro hfail
    have hu : uint8ArrayNew m.length ((dv.off : Int) + (byteStride : Int) * index)
        (byteStride : Int) = .error .rangeErr := by
      unfold uint8ArrayNew
      rw [if_pos (by omega)]
    unfold structArrayItem
    rw [hsb, hu]
  · intro j
    unfold u8Get dvGetUint
    rw [if_pos rfl, getBytesLE_one]

/-- C9 witness: over a 6-byte buffer with stride 3, `item(1)` (the last
in-bounds element) succeeds with the view `[3, 6)`, while `item(2)` — past
the end of the backing buffer — fails with a range error. -/
theorem structArrayItem_spec_witness :
    structArrayItem [0, 1, 2, 3, 4, 5] ⟨0, 6⟩ 3 1 = .ok ⟨3, 3⟩ ∧
      structArrayItem [0, 1, 2, 3, 4, 5] ⟨0, 6⟩ 3 2 = .error .rangeErr := by
  constructor
  · have h := (structArrayItem_spec [0, 1, 2, 3, 4, 5] ⟨0, 6⟩ 3 1).1 (by norm_num)
    simpa using h
  · exact (structArrayItem_spec [0, 1, 2, 3, 4, 5] ⟨0, 6⟩ 3 2).2.1 (by norm_num)

/-- Floor base-2 logarithm by fuelled halving (structural recursion, so
that concrete instances evaluate by kernel reduction). -/
def log2Aux : Nat → Nat → Nat
  | 0, _ => 0
  | fuel + 1, n => if n < 2 then 0 else log2Aux fuel (n / 2) + 1

/-- Floor base-2 logarithm: position of the highest set bit. -/
def natLog2 (n : Nat) : Nat := log2Aux n n

theorem log2Aux_eq : ∀ {fuel n k : Nat}, n ≤ fuel → 2 ^ k ≤ n → n < 2 ^ (k + 1) →
    log2Aux fuel n = k := by
  intro fuel
  induction fuel with
  | zero =>
    intro n k hn hk _
    have : (0 : Nat) < 2 ^ k := Nat.pos_pow_of_pos k (by norm_num)
    omega
  | succ fu ih =>
    intro n k hn hk hk2
    by_cases hsmall : n < 2
    · have hk0 : k = 0 := by
        by_contra hne
        have : 2 ≤ 2 ^ k := by
          calc 2 = 2 ^ 1 := rfl
          _ ≤ 2 ^ k := Nat.pow_le_pow_right (by norm_num) (by omega)
        omega
      simp [log2Aux, hsmall, hk0]
    · have hk1 : 1 ≤ k := by
        by_contra hne
        have hk0 : k = 0 := by omega
        rw [hk0] at hk2
        norm_num at hk2
        omega
      have hrec : log2Aux (fu + 1) n = log2Aux fu (n / 2) + 1 := by
        simp [log2Aux, hsmall]
      rw [hrec]
      have hdiv1 : 2 ^ (k - 1) ≤ n / 2 := by
        apply Nat.le_div_iff_mul_le (by norm_num) |>.mpr
        calc 2 ^ (k - 1) * 2 = 2 ^ k := by
              rw [← pow_succ]
              congr 1
              omega
          _ ≤ n := hk
      have hdiv2 : n / 2 < 2 ^ (k - 1 + 1) := by
        apply Nat.div_lt_of_lt_mul
        calc n < 2 ^ (k + 1) := hk2
          _ = 2 * 2 ^ (k - 1 + 1) := by
              rw [← pow_succ']
              congr 1
              omega
      rw [ih (by omega) hdiv1 hdiv2]
      omega

theorem natLog2_eq {n k : Nat} (h1 : 2 ^ k ≤ n) (h2 : n < 2 ^ (k + 1)) :
    natLog2 n = k :=
  log2Aux_eq (le_refl n) h1 h2

/-- A pattern with all-ones exponent and nonzero mantissa, in an
interchange format with `E` exponent and `M` mantissa bits. -/
def isNaNBits (E M w : Nat) : Prop := w / 2 ^ M % 2 ^ E = 2 ^ E - 1 ∧ w % 2 ^ M ≠ 0

/-- The canonical quiet NaN of the format (sign 0, top mantissa bit set),
the implementation choice taken when the host materializes the single
ECMAScript NaN value as bits. -/
def canonNaN (E M : Nat) : Nat := (2 ^ E - 1) * 2 ^ M + 2 ^ (M - 1)

/-- The canonical binary64 NaN pattern (0x7FF8000000000000). -/
def canonNaN64 : Nat := canonNaN 11 52

/-- NaN test on binary64 patterns. -/
def isNaN64 (b : Nat) : Prop := b / 2 ^ 52 % 2 ^ 11 = 2047 ∧ b % 2 ^ 52 ≠ 0

/-- The model of an ECMAScript number value: its binary64 pattern, with the
single NaN value represented by the canonical pattern. -/
def jsNumOk (b : Nat) : Prop := b < 2 ^ 64 ∧ (isNaN64 b → b = canonNaN64)

/-- Collapse any NaN pattern to the canonical one: the value a host float
read surfaces to the program. -/
def toJSNum (b : Nat) : Nat := if b / 2 ^ 52 % 2 ^ 11 = 2047 ∧ b % 2 ^ 52 ≠ 0 then canonNaN64 else b

/-- Exact widening conversion from an `(E, M)` interchange format to
binary64, the IEEE-754 conversion performed by the host `getFloat16` and
`getFloat32` reads.  Subnormal inputs are normalized (binary64 covers the
whole subnormal range of binary16/32 with normal numbers). -/
def fpWiden (E M : Nat) (w : Nat) : Nat :=
  let s := w / 2 ^ (E + M)
  let e := w / 2 ^ M % 2 ^ E
  let m := w % 2 ^ M
  let bias := 2 ^ (E - 1) - 1
  if e = 2 ^ E - 1 then
    s * 2 ^ 63 + 2047 * 2 ^ 52 + m * 2 ^ (52 - M)
  else if e = 0 then
    if m = 0 then s * 2 ^ 63
    else
      let L := natLog2 m
      s * 2 ^ 63 + ((1024 + L) - (bias + M)) * 2 ^ 52 + (m - 2 ^ L) * 2 ^ (52 - L)
  else
    s * 2 ^ 63 + (e + 1023 - bias) * 2 ^ 52 + m * 2 ^ (52 - M)

/-- Round `f / 2^k` to the nearest integer, ties to even. -/
def roundNE (f k : Nat) : Nat :=
  let hi := f / 2 ^ k
  let low := f % 2 ^ k
  let tie := 2 ^ (k - 1)
  if low < tie then hi
  else if tie < low then hi + 1
  else if hi % 2 = 0 then hi else hi + 1

/-- Quantization step of IEEE-754 narrowing: the positive value `f · 2^ε`
is rounded (nearest, ties to even) to a multiple `n` of the quantum `2^q`,
where `q` positions the result at `M + 1` significant bits, clamped below
at the subnormal quantum `2^(1 - bias - M)` of the target format.  Returns
`(n, q)`. -/
def fpRound (M : Nat) (bias : Int) (f : Nat) (ε : Int) : Nat × Int :=
  let q : Int := max ((natLog2 f : Int) + ε - M) (1 - bias - M)
  (if 0 ≤ ε - q then f * 2 ^ (ε - q).toNat else roundNE f (q - ε).toNat, q)

/-- Encoding step of IEEE-754 narrowing: pack the rounded value `n · 2^q`
(nonnegative, sign `s`) into the `(E, M)` format — zero, overflow to
infinity, subnormal, or normal with the leading bit dropped. -/
def fpEncode (E M s : Nat) (bias : Int) (nq : Nat × Int) : Nat :=
  if nq.1 = 0 then s * 2 ^ (E + M)
  else
    let ee2 : Int := (natLog2 nq.1 : Int) + nq.2
    if bias < ee2 then s * 2 ^ (E + M) + (2 ^ E - 1) * 2 ^ M
    else if nq.1 < 2 ^ M then s * 2 ^ (E + M) + nq.1
    else s * 2 ^ (E + M) + (ee2 + bias).toNat * 2 ^ M
      + (nq.1 - 2 ^ natLog2 nq.1) / 2 ^ (natLog2 nq.1 - M)

/-- Narrowing conversion of a finite binary64 value (given as extracted
sign, exponent field and mantissa field) to an `(E, M)` interchange format
with round-to-nearest-even, the IEEE-754 rounding performed by the host
`setFloat16`/`setFloat32` writes: the value is `±f·2^ε` for the integer
significand `f`; it is quantized by `fpRound` and packed by `fpEncode`. -/
def fpNarrowFinite (E M s e m : Nat) : Nat :=
  let f := if e = 0 then m else 2 ^ 52 + m
  if f = 0 then s * 2 ^ (E + M)
  else fpEncode E M s ((2 : Int) ^ (E - 1) - 1)
    (fpRound M ((2 : Int) ^ (E - 1) - 1) f ((max e 1 : Int) - 1075))

/-- Narrowing conversion binary64 → `(E, M)` format: infinities map to
infinities, NaN to the canonical NaN of the target, finite values are
rounded by `fpNarrowFinite`. -/
def fpNarrow (E M b : Nat) : Nat :=
  if b / 2 ^ 52 % 2 ^ 11 = 2047 then
    if b % 2 ^ 52 = 0 then b / 2 ^ 63 % 2 * 2 ^ (E + M) + (2 ^ E - 1) * 2 ^ M
    else canonNaN E M
  else fpNarrowFinite E M (b / 2 ^ 63 % 2) (b / 2 ^ 52 % 2 ^ 11) (b % 2 ^ 52)

/-- Model of the host `getFloat16(fieldOffset, le)`: read 2 bytes, widen
binary16 → binary64, canonicalize NaN. -/
def dvGetFloat16 (m : Mem) (dv : DV) (fieldOffset : Nat) (le : Bool) : Nat :=
  toJSNum (fpWiden 5 10 (if le then getBytesLE m (dv.off + fieldOffset) 2
    else getBytesBE m (dv.off + fieldOffset) 2))

/-- Model of the host `setFloat16(fieldOffset, v, le)`: narrow binary64 →
binary16 with IEEE rounding and store the 2 bytes. -/
def dvSetFloat16 (m : Mem) (dv : DV) (fieldOffset : Nat) (le : Bool) (v : Nat) : Mem :=
  if le then setBytesLE m (dv.off + fieldOffset) 2 (fpNarrow 5 10 v)
  else setBytesBE m (dv.off + fieldOffset) 2 (fpNarrow 5 10 v)

/-- Model of the host `getFloat32(fieldOffset, le)`: read 4 bytes, widen
binary32 → binary64, canonicalize NaN. -/
def dvGetFloat32 (m : Mem) (dv : DV) (fieldOffset : Nat) (le : Bool) : Nat :=
  toJSNum (fpWiden 8 23 (if le then getBytesLE m (dv.off + fieldOffset) 4
    else getBytesBE m (dv.off + fieldOffset) 4))

/-- Model of the host `setFloat32(fieldOffset, v, le)`: narrow binary64 →
binary32 with IEEE rounding and store the 4 bytes. -/
def dvSetFloat32 (m : Mem) (dv : DV) (fieldOffset : Nat) (le : Bool) (v : Nat) : Mem :=
  if le then setBytesLE m (dv.off + fieldOffset) 4 (fpNarrow 8 23 v)
  else setBytesBE m (dv.off + fieldOffset) 4 (fpNarrow 8 23 v)

/-- Model of the host `getFloat64(fieldOffset, le)`: read the 8 bytes of
the binary64 pattern, canonicalize NaN. -/
def dvGetFloat64 (m : Mem) (dv : DV) (fieldOffset : Nat) (le : Bool) : Nat :=
  toJSNum (if le then getBytesLE m (dv.off + fieldOffset) 8
    else getBytesBE m (dv.off + fieldOffset) 8)

/-- Model of the host `setFloat64(fieldOffset, v, le)`: store the 8 bytes
of the binary64 pattern. -/
def dvSetFloat64 (m : Mem) (dv : DV) (fieldOffset : Nat) (le : Bool) (v : Nat) : Mem :=
  if le then setBytesLE m (dv.off + fieldOffset) 8 v
  else setBytesBE m (dv.off + fieldOffset) 8 v

theorem tri_decomp {p q : Nat} (s e m : Nat) (hm : m < 2 ^ p) (he : e < 2 ^ q) :
    (s * 2 ^ (p + q) + e * 2 ^ p + m) % 2 ^ p = m ∧
    (s * 2 ^ (p + q) + e * 2 ^ p + m) / 2 ^ p % 2 ^ q = e ∧
    (s * 2 ^ (p + q) + e * 2 ^ p + m) / 2 ^ (p + q) = s := by
  have hp : (0 : Nat) < 2 ^ p := Nat.pos_pow_of_pos p (by norm_num)
  have hq : (0 : Nat) < 2 ^ q := Nat.pos_pow_of_pos q (by norm_num)
  have hx : s * 2 ^ (p + q) + e * 2 ^ p + m = m + (s * 2 ^ q + e) * 2 ^ p := by
    rw [pow_add]
    ring
  refine ⟨?_, ?_, ?_⟩
  · rw [hx, Nat.add_mul_mod_self_right, Nat.mod_eq_of_lt hm]
  · rw [hx, Nat.add_mul_div_right _ _ hp, Nat.div_eq_of_lt hm, Nat.zero_add,
      Nat.add_comm (s * 2 ^ q) e, Nat.add_mul_mod_self_right, Nat.mod_eq_of_lt he]
  · have hx2 : s * 2 ^ (p + q) + e * 2 ^ p + m = (e * 2 ^ p + m) + s * 2 ^ (p + q) := by
      ring
    rw [hx2, Nat.add_mul_div_right _ _ (Nat.pos_pow_of_pos _ (by norm_num)),
      Nat.div_eq_of_lt, Nat.zero_add]
    calc e * 2 ^ p + m < e * 2 ^ p + 2 ^ p := by omega
      _ = (e + 1) * 2 ^ p := by ring
      _ ≤ 2 ^ q * 2 ^ p := Nat.mul_le_mul_right _ (by omega)
      _ = 2 ^ (p + q) := by rw [← pow_add, Nat.add_comm]

theorem roundNE_exact {f k : Nat} (h : 2 ^ k ∣ f) : roundNE f k = f / 2 ^ k := by
  unfold roundNE
  have hlow : f % 2 ^ k = 0 := by
    obtain ⟨c, rfl⟩ := h
    exact Nat.mul_mod_right _ _
  rw [hlow, if_pos (Nat.pos_pow_of_pos _ (by norm_num))]

theorem fpNarrowFinite_zero (E M s : Nat) : fpNarrowFinite E M s 0 0 = s * 2 ^ (E + M) := by
  simp [fpNarrowFinite]

theorem natLog2_bounds {n : Nat} (h : n ≠ 0) :
    2 ^ natLog2 n ≤ n ∧ n < 2 ^ (natLog2 n + 1) := by
  have h1 := Nat.log2_self_le h
  have h2 := Nat.lt_log2_self (n := n)
  rw [natLog2_eq h1 h2]
  exact ⟨h1, h2⟩

theorem fpRound_exact_normal {M : Nat} (bias ε : Int) (f : Nat) (hM52 : M ≤ 52)
    (hlog : natLog2 f = 52) (hdvd : 2 ^ (52 - M) ∣ f)
    (hge : 1 - bias - (M : Int) ≤ 52 + ε - M) :
    fpRound M bias f ε = (f / 2 ^ (52 - M), 52 + ε - (M : Int)) := by
  simp only [fpRound]
  rw [hlog]
  have hcast : ((52 : Nat) : Int) = (52 : Int) := by norm_num
  rw [hcast, max_eq_left hge]
  rcases Nat.lt_or_ge M 52 with hlt | hge52
  · have hsh : ¬(0 ≤ ε - ((52 : Int) + ε - M)) := by omega
    rw [if_neg hsh]
    have htn : (((52 : Int) + ε - M) - ε).toNat = 52 - M := by omega
    rw [htn, roundNE_exact hdvd]
  · have hM52' : M = 52 := by omega
    subst hM52'
    have hsh : 0 ≤ ε - ((52 : Int) + ε - (52 : Nat)) := by
      norm_num
    rw [if_pos hsh]
    have htn : (ε - ((52 : Int) + ε - (52 : Nat))).toNat = 0 := by
      norm_num
    rw [htn]
    norm_num

theorem fpRound_exact_sub {M : Nat} (bias ε : Int) (f : Nat)
    (hlog : natLog2 f = 52)
    (hqle : (52 : Int) + ε - M ≤ 1 - bias - M)
    (hshle : ε ≤ 1 - bias - (M : Int))
    (hdvd : 2 ^ ((1 - bias - (M : Int)) - ε).toNat ∣ f) :
    fpRound M bias f ε
      = (f / 2 ^ ((1 - bias - (M : Int)) - ε).toNat, 1 - bias - (M : Int)) := by
  simp only [fpRound]
  rw [hlog]
  have hcast : ((52 : Nat) : Int) = (52 : Int) := by norm_num
  rw [hcast, max_eq_right hqle]
  by_cases hsh : 0 ≤ ε - (1 - bias - (M : Int))
  · have h0 : (ε - (1 - bias - (M : Int))).toNat = 0 := by omega
    have h0' : ((1 - bias - (M : Int)) - ε).toNat = 0 := by omega
    rw [if_pos hsh, h0, h0']
    norm_num
  · rw [if_neg hsh, roundNE_exact hdvd]

theorem fpEncode_normal {E M : Nat} (s : Nat) (bias q : Int) (n : Nat)
    (h1 : 2 ^ M ≤ n) (h2 : n < 2 ^ (M + 1)) (hle : (M : Int) + q ≤ bias) :
    fpEncode E M s bias (n, q)
      = s * 2 ^ (E + M) + ((M : Int) + q + bias).toNat * 2 ^ M + (n - 2 ^ M) := by
  have hn0 : n ≠ 0 := by
    have := Nat.pos_pow_of_pos M (show 0 < 2 by norm_num)
    omega
  have hlog : natLog2 n = M := natLog2_eq h1 h2
  simp only [fpEncode]
  rw [if_neg hn0, hlog]
  rw [if_neg (by omega : ¬(bias < (M : Int) + q))]
  rw [if_neg (by omega : ¬(n < 2 ^ M))]
  have hdd : (n - 2 ^ M) / 2 ^ (M - M) = n - 2 ^ M := by
    rw [Nat.sub_self, pow_zero, Nat.div_one]
  rw [hdd]

theorem fpEncode_sub {E M : Nat} (s : Nat) (bias : Int) (n : Nat)
    (hn0 : n ≠ 0) (h2 : n < 2 ^ M) (hbias : 1 ≤ bias) :
    fpEncode E M s bias (n, 1 - bias - (M : Int)) = s * 2 ^ (E + M) + n := by
  have hL := natLog2_bounds hn0
  have hLM : natLog2 n < M := by
    by_contra hc
    push_neg at hc
    have : (2 : Nat) ^ M ≤ 2 ^ natLog2 n := Nat.pow_le_pow_right (by norm_num) hc
    omega
  simp only [fpEncode]
  rw [if_neg hn0]
  rw [if_neg ?hov]
  case hov =>
    have : (natLog2 n : Int) ≤ (M : Int) - 1 := by
      have := hLM
      omega
    omega
  rw [if_pos h2]
theorem fpNarrow_fpWiden {E M : Nat} (hE : 2 ≤ E) (hE10 : E ≤ 10) (hM : 1 ≤ M)
    (hM52 : M ≤ 52) (hbiasM : 2 ^ (E - 1) - 1 + M ≤ 1023)
    {w : Nat} (hw : w < 2 ^ (E + M + 1))
    (hnan : isNaNBits E M w → w = canonNaN E M) :
    fpNarrow E M (fpWiden E M w) = w := by
  have hE1 : (2 : Nat) ^ 1 ≤ 2 ^ (E - 1) := Nat.pow_le_pow_right (by norm_num) (by omega)
  have hE9 : (2 : Nat) ^ (E - 1) ≤ 2 ^ 9 := Nat.pow_le_pow_right (by norm_num) (by omega)
  have hbnI : (((2 : Nat) ^ (E - 1) - 1 : Nat) : Int) = (2 : Int) ^ (E - 1) - 1 := by
    rw [Nat.cast_sub (by omega)]
    push_cast
    ring
  have hbnInt1 : (1 : Int) ≤ (2 : Int) ^ (E - 1) - 1 := by omega
  have hMpos : (0 : Nat) < 2 ^ M := Nat.pos_pow_of_pos M (by norm_num)
  have hEpos : (0 : Nat) < 2 ^ E := Nat.pos_pow_of_pos E (by norm_num)
  have hmt_lt : w % 2 ^ M < 2 ^ M := Nat.mod_lt _ hMpos
  have het_lt : w / 2 ^ M % 2 ^ E < 2 ^ E := Nat.mod_lt _ hEpos
  have hs1 : w / 2 ^ (E + M) ≤ 1 := by
    have h2 : w < 2 * 2 ^ (E + M) := by
      rw [← pow_succ']
      exact lt_of_lt_of_le hw (Nat.pow_le_pow_right (by norm_num) (by omega))
    have := (Nat.div_lt_iff_lt_mul (Nat.pos_pow_of_pos (E + M) (by norm_num))).mpr
      (by omega : w < 2 * 2 ^ (E + M))
    omega
  have hw_eq : w = w / 2 ^ (E + M) * 2 ^ (E + M)
      + (w / 2 ^ M % 2 ^ E) * 2 ^ M + w % 2 ^ M := by
    have h1 : 2 ^ (E + M) * (w / 2 ^ (E + M)) + w % 2 ^ (E + M) = w :=
      Nat.div_add_mod w (2 ^ (E + M))
    have h2 : w % 2 ^ (E + M) / 2 ^ M = w / 2 ^ M % 2 ^ E := by
      have hpw : (2 : Nat) ^ (E + M) = 2 ^ M * 2 ^ E := by
        rw [← pow_add]
        congr 1
        omega
      rw [hpw, Nat.mod_mul_right_div_self]
    have h4 : 2 ^ M * (w % 2 ^ (E + M) / 2 ^ M) + w % 2 ^ (E + M) % 2 ^ M
        = w % 2 ^ (E + M) := Nat.div_add_mod _ _
    have h3 : w % 2 ^ (E + M) % 2 ^ M = w % 2 ^ M :=
      Nat.mod_mod_of_dvd w (pow_dvd_pow 2 (by omega))
    rw [h2, h3] at h4
    calc w = 2 ^ (E + M) * (w / 2 ^ (E + M)) + w % 2 ^ (E + M) := h1.symm
      _ = 2 ^ (E + M) * (w / 2 ^ (E + M))
          + (2 ^ M * (w / 2 ^ M % 2 ^ E) + w % 2 ^ M) := by rw [h4]
      _ = w / 2 ^ (E + M) * 2 ^ (E + M) + w / 2 ^ M % 2 ^ E * 2 ^ M + w % 2 ^ M := by
          ring
  simp only [fpWiden]
  set s := w / 2 ^ (E + M) with hs_def
  set et := w / 2 ^ M % 2 ^ E with het_def
  set mt := w % 2 ^ M with hmt_def
  have hsmod : s % 2 = s := Nat.mod_eq_of_lt (by omega)
  by_cases hcase1 : et = 2 ^ E - 1
  · rw [if_pos hcase1]
    have hm64_lt : mt * 2 ^ (52 - M) < 2 ^ 52 := by
      calc mt * 2 ^ (52 - M) < 2 ^ M * 2 ^ (52 - M) :=
            (Nat.mul_lt_mul_right (Nat.pos_pow_of_pos _ (by norm_num))).mpr hmt_lt
        _ = 2 ^ 52 := by
            rw [← pow_add]
            congr 1
            omega
    obtain ⟨hf1, hf2, hf3⟩ := tri_decomp (p := 52) (q := 11) s 2047 (mt * 2 ^ (52 - M))
      hm64_lt (by norm_num)
    have e63 : (2 : Nat) ^ (52 + 11) = 2 ^ 63 := by norm_num
    rw [e63] at hf1 hf2 hf3
    unfold fpNarrow
    rw [hf2, if_pos rfl, hf1]
    by_cases hmt0 : mt = 0
    · rw [if_pos (by rw [hmt0]; ring), hf3, hsmod]
      rw [hw_eq, hcase1, hmt0]
      ring
    · rw [if_neg (Nat.mul_ne_zero hmt0 (Nat.pos_pow_of_pos (52 - M) (by norm_num)).ne')]
      exact (hnan ⟨hcase1, hmt0⟩).symm
  · rw [if_neg hcase1]
    by_cases hcase2 : et = 0
    · rw [if_pos hcase2]
      by_cases hmt0 : mt = 0
      · rw [if_pos hmt0]
        have hX2 : s * 2 ^ 63 = s * 2 ^ (52 + 11) + 0 * 2 ^ 52 + 0 := by norm_num
        obtain ⟨hf1, hf2, hf3⟩ := tri_decomp (p := 52) (q := 11) s 0 0
          (Nat.pos_pow_of_pos 52 (by norm_num)) (Nat.pos_pow_of_pos 11 (by norm_num))
        rw [← hX2] at hf1 hf2 hf3
        unfold fpNarrow
        rw [hf2, if_neg (by norm_num), hf1, hf3, hsmod]
        rw [fpNarrowFinite_zero]
        rw [hw_eq, hcase2, hmt0]
        ring
      · rw [if_neg hmt0]
        obtain ⟨hL1, hL2⟩ := natLog2_bounds hmt0
        set L := natLog2 mt with hL_def
        have hLM : L < M := by
          by_contra hc
          push_neg at hc
          have : (2 : Nat) ^ M ≤ 2 ^ L := Nat.pow_le_pow_right (by norm_num) hc
          omega
        have hL51 : L ≤ 51 := by omega
        set e64 : Nat := (1024 + L) - (2 ^ (E - 1) - 1 + M) with he64_def
        have he64_1 : 1 ≤ e64 := by omega
        have h2047 : e64 ≤ 1075 := by omega
        have he64_lt : e64 < 2 ^ 11 := by
          have h211 : (2 : Nat) ^ 11 = 2048 := by norm_num
          omega
        have hm64_lt : (mt - 2 ^ L) * 2 ^ (52 - L) < 2 ^ 52 := by
          calc (mt - 2 ^ L) * 2 ^ (52 - L) < 2 ^ L * 2 ^ (52 - L) := by
                apply (Nat.mul_lt_mul_right (Nat.pos_pow_of_pos _ (by norm_num))).mpr
                omega
            _ = 2 ^ 52 := by
                rw [← pow_add]
                congr 1
                omega
        obtain ⟨hf1, hf2, hf3⟩ := tri_decomp (p := 52) (q := 11) s e64
          ((mt - 2 ^ L) * 2 ^ (52 - L)) hm64_lt he64_lt
        unfold fpNarrow
        rw [hf2, if_neg (by omega), hf1, hf3, hsmod]
        simp only [fpNarrowFinite]
        rw [if_neg (by omega : ¬e64 = 0)]
        have h52pos : (0 : Nat) < 2 ^ 52 := Nat.pos_pow_of_pos 52 (by norm_num)
        rw [if_neg (by omega : ¬(2 ^ 52 + (mt - 2 ^ L) * 2 ^ (52 - L) = 0))]
        have hf_eq : 2 ^ 52 + (mt - 2 ^ L) * 2 ^ (52 - L) = mt * 2 ^ (52 - L) := by
          have hc : 2 ^ L * 2 ^ (52 - L) = 2 ^ 52 := by
            rw [← pow_add]
            congr 1
            omega
          have hsm := Nat.sub_mul mt (2 ^ L) (2 ^ (52 - L))
          have hge : 2 ^ 52 ≤ mt * 2 ^ (52 - L) := by
            calc (2 : Nat) ^ 52 = 2 ^ L * 2 ^ (52 - L) := hc.symm
              _ ≤ mt * 2 ^ (52 - L) := Nat.mul_le_mul_right _ hL1
          omega
        rw [hf_eq]
        have hc52 : (2 : Nat) ^ 52 = 2 ^ L * 2 ^ (52 - L) := by
          rw [← pow_add]
          congr 1
          omega
        have hc53 : (2 : Nat) ^ (L + 1) * 2 ^ (52 - L) = 2 ^ (52 + 1) := by
          rw [← pow_add]
          congr 1
          omega
        have hlogf : natLog2 (mt * 2 ^ (52 - L)) = 52 := by
          apply natLog2_eq
          · rw [hc52]
            exact Nat.mul_le_mul_right _ hL1
          · rw [← hc53]
            exact (Nat.mul_lt_mul_right (Nat.pos_pow_of_pos _ (by norm_num))).mpr hL2
        have hmax : max ((e64 : Nat) : Int) 1 = ((e64 : Nat) : Int) :=
          max_eq_left (by exact_mod_cast he64_1)
        rw [hmax]
        have hcast_bnM : ((2 ^ (E - 1) - 1 + M : Nat) : Int)
            = (2 : Int) ^ (E - 1) - 1 + (M : Int) := by
          rw [Nat.cast_add, hbnI]
        have hcast_e64 : ((e64 : Nat) : Int)
            = 1024 + (L : Int) - ((2 : Int) ^ (E - 1) - 1 + M) := by
          rw [he64_def, Nat.cast_sub (by omega), hcast_bnM]
          push_cast
          ring
        have hshift : ((1 - ((2 : Int) ^ (E - 1) - 1) - (M : Int))
            - (((e64 : Nat) : Int) - 1075)).toNat = 52 - L := by
          rw [hcast_e64]
          omega
        have hqle2 : (52 : Int) + (((e64 : Nat) : Int) - 1075) - (M : Int)
            ≤ 1 - ((2 : Int) ^ (E - 1) - 1) - (M : Int) := by
          rw [hcast_e64]
          omega
        have hshle2 : (((e64 : Nat) : Int) - 1075) ≤ 1 - ((2 : Int) ^ (E - 1) - 1) - (M : Int) := by
          rw [hcast_e64]
          omega
        have hdvd2 : 2 ^ ((1 - ((2 : Int) ^ (E - 1) - 1) - (M : Int))
            - (((e64 : Nat) : Int) - 1075)).toNat ∣ mt * 2 ^ (52 - L) := by
          rw [hshift]
          exact dvd_mul_left _ _
        have hround := fpRound_exact_sub ((2 : Int) ^ (E - 1) - 1)
          (((e64 : Nat) : Int) - 1075) (mt * 2 ^ (52 - L)) hlogf hqle2 hshle2 hdvd2
        rw [hround, hshift]
        have hdivc : mt * 2 ^ (52 - L) / 2 ^ (52 - L) = mt :=
          Nat.mul_div_cancel mt (Nat.pos_pow_of_pos _ (by norm_num))
        rw [hdivc, fpEncode_sub s _ mt hmt0 hmt_lt hbnInt1]
        rw [hw_eq, hcase2]
        ring
    · rw [if_neg hcase2]
      have het1 : 1 ≤ et := by omega
      have h2E : (2 : Nat) ^ E = 2 ^ (E - 1) * 2 := by
        rw [← pow_succ]
        congr 1
        omega
      have het2 : et ≤ 2 ^ E - 2 := by omega
      set e64 : Nat := et + 1023 - (2 ^ (E - 1) - 1) with he64_def
      have he64_1 : 1 ≤ e64 := by omega
      have h2047 : e64 ≤ 1534 := by omega
      have he64_lt : e64 < 2 ^ 11 := by
        have h211 : (2 : Nat) ^ 11 = 2048 := by norm_num
        omega
      have hm64_lt : mt * 2 ^ (52 - M) < 2 ^ 52 := by
        calc mt * 2 ^ (52 - M) < 2 ^ M * 2 ^ (52 - M) :=
              (Nat.mul_lt_mul_right (Nat.pos_pow_of_pos _ (by norm_num))).mpr hmt_lt
          _ = 2 ^ 52 := by
              rw [← pow_add]
              congr 1
              omega
      obtain ⟨hf1, hf2, hf3⟩ := tri_decomp (p := 52) (q := 11) s e64
        (mt * 2 ^ (52 - M)) hm64_lt he64_lt
      unfold fpNarrow
      rw [hf2, if_neg (by omega), hf1, hf3, hsmod]
      simp only [fpNarrowFinite]
      rw [if_neg (by omega : ¬e64 = 0)]
      have h52pos : (0 : Nat) < 2 ^ 52 := Nat.pos_pow_of_pos 52 (by norm_num)
      rw [if_neg (by omega : ¬(2 ^ 52 + mt * 2 ^ (52 - M) = 0))]
      have h53 : (2 : Nat) ^ (52 + 1) = 2 ^ 52 * 2 := by
        rw [pow_succ]
      have hlogf : natLog2 (2 ^ 52 + mt * 2 ^ (52 - M)) = 52 :=
        natLog2_eq (by omega) (by omega)
      have hdvd : 2 ^ (52 - M) ∣ 2 ^ 52 + mt * 2 ^ (52 - M) :=
        dvd_add (pow_dvd_pow 2 (by omega)) (dvd_mul_left _ _)
      have hmax : max ((e64 : Nat) : Int) 1 = ((e64 : Nat) : Int) :=
        max_eq_left (by exact_mod_cast he64_1)
      rw [hmax]
      have hcast_e64 : ((e64 : Nat) : Int)
          = (et : Int) + 1023 - ((2 : Int) ^ (E - 1) - 1) := by
        rw [he64_def, Nat.cast_sub (by omega), hbnI]
        push_cast
        ring
      have hround := fpRound_exact_normal ((2 : Int) ^ (E - 1) - 1)
        (((e64 : Nat) : Int) - 1075) (2 ^ 52 + mt * 2 ^ (52 - M)) hM52 hlogf hdvd
        (by rw [hcast_e64]; omega)
      rw [hround]
      have hdivf : (2 ^ 52 + mt * 2 ^ (52 - M)) / 2 ^ (52 - M) = 2 ^ M + mt := by
        have hfac : 2 ^ 52 + mt * 2 ^ (52 - M) = (2 ^ M + mt) * 2 ^ (52 - M) := by
          rw [Nat.add_mul]
          congr 1
          rw [← pow_add]
          congr 1
          omega
        rw [hfac, Nat.mul_div_cancel _ (Nat.pos_pow_of_pos _ (by norm_num))]
      rw [hdivf]
      have h2M1 : (2 : Nat) ^ (M + 1) = 2 ^ M * 2 := by
        rw [pow_succ]
      have he64_le : e64 ≤ 2 ^ (E - 1) - 1 + 1023 := by omega
      have hcastle : ((e64 : Nat) : Int) ≤ (2 : Int) ^ (E - 1) - 1 + 1023 := by
        calc ((e64 : Nat) : Int) ≤ ((2 ^ (E - 1) - 1 + 1023 : Nat) : Int) := by
              exact_mod_cast he64_le
          _ = (2 : Int) ^ (E - 1) - 1 + 1023 := by
              rw [Nat.cast_add, hbnI]
              norm_num
      have henc := fpEncode_normal (E := E) (M := M) s ((2 : Int) ^ (E - 1) - 1)
        ((52 : Int) + (((e64 : Nat) : Int) - 1075) - (M : Int)) (2 ^ M + mt)
        (by omega) (by omega) (by omega)
      rw [henc]
      have htoNat : ((M : Int) + ((52 : Int) + (((e64 : Nat) : Int) - 1075) - (M : Int))
          + ((2 : Int) ^ (E - 1) - 1)).toNat = et := by
        rw [hcast_e64]
        omega
      rw [htoNat]
      have hsub : 2 ^ M + mt - 2 ^ M = mt := by omega
      rw [hsub]
      rw [hw_eq]
/-- A Unicode scalar value: a code point outside the surrogate range. -/
def ScalarValue (c : Nat) : Prop := c < 0x110000 ∧ ¬(0xD800 ≤ c ∧ c < 0xE000)

instance (c : Nat) : Decidable (ScalarValue c) := by
  unfold ScalarValue
  infer_instance

/-- UTF-8 encoding of one Unicode scalar value (model of the host
`TextEncoder`, an external collaborator per the specification). -/
def utf8EncodeChar (c : Nat) : List Nat :=
  if c < 0x80 then [c]
  else if c < 0x800 then [0xC0 + c / 64, 0x80 + c % 64]
  else if c < 0x10000 then [0xE0 + c / 4096, 0x80 + c / 64 % 64, 0x80 + c % 64]
  else [0xF0 + c / 0x40000, 0x80 + c / 4096 % 64, 0x80 + c / 64 % 64, 0x80 + c % 64]

/-- UTF-8 encoding of a sequence of scalar values. -/
def utf8Encode (s : List Nat) : List Nat := (s.map utf8EncodeChar).flatten

/-- Model of `TextEncoder.encodeInto` against a destination of `space`
bytes: encode characters greedily, stopping at the first whose full
encoding no longer fits. -/
def encodeIntoList : List Nat → Nat → List Nat
  | [], _ => []
  | c :: cs, space =>
    let e := utf8EncodeChar c
    if e.length ≤ space then e ++ encodeIntoList cs (space - e.length) else []

/-- One step of UTF-8 decoding (model of the host `TextDecoder` in its
default replacement mode): decode one scalar value — or produce U+FFFD on
a malformed sequence — and return the remaining bytes. -/
def utf8DecodeStep : List Nat → Nat × List Nat
  | [] => (0xFFFD, [])
  | b :: bs =>
    if b < 0x80 then (b, bs)
    else if b < 0xC2 then (0xFFFD, bs)
    else if b < 0xE0 then
      match bs with
      | b1 :: bs1 =>
        if 0x80 ≤ b1 ∧ b1 < 0xC0 then ((b - 0xC0) * 64 + (b1 - 0x80), bs1)
        else (0xFFFD, bs)
      | [] => (0xFFFD, [])
    else if b < 0xF0 then
      match bs with
      | b1 :: b2 :: bs2 =>
        if (0x80 ≤ b1 ∧ b1 < 0xC0) ∧ (0x80 ≤ b2 ∧ b2 < 0xC0) ∧
            ¬(b = 0xE0 ∧ b1 < 0xA0) ∧ ¬(b = 0xED ∧ 0xA0 ≤ b1) then
          ((b - 0xE0) * 4096 + (b1 - 0x80) * 64 + (b2 - 0x80), bs2)
        else (0xFFFD, bs)
      | _ => (0xFFFD, bs)
    else if b < 0xF5 then
      match bs with
      | b1 :: b2 :: b3 :: bs3 =>
        if (0x80 ≤ b1 ∧ b1 < 0xC0) ∧ (0x80 ≤ b2 ∧ b2 < 0xC0) ∧
            (0x80 ≤ b3 ∧ b3 < 0xC0) ∧
            ¬(b = 0xF0 ∧ b1 < 0x90) ∧ ¬(b = 0xF4 ∧ 0x90 ≤ b1) then
          ((b - 0xF0) * 0x40000 + (b1 - 0x80) * 4096 + (b2 - 0x80) * 64 + (b3 - 0x80), bs3)
        else (0xFFFD, bs)
      | _ => (0xFFFD, bs)
    else (0xFFFD, bs)

/-- Fuelled UTF-8 decoding loop (structural recursion so that concrete
instances evaluate by kernel reduction; every step consumes at least one
byte, so a fuel of the byte length suffices). -/
def utf8DecodeAux : Nat → List Nat → List Nat
  | 0, _ => []
  | _ + 1, [] => []
  | fuel + 1, b :: bs =>
    (utf8DecodeStep (b :: bs)).1 :: utf8DecodeAux fuel (utf8DecodeStep (b :: bs)).2

/-- UTF-8 decoding of a byte sequence into scalar values, malformed
sequences replaced by U+FFFD. -/
def utf8Decode (l : List Nat) : List Nat := utf8DecodeAux l.length l

theorem utf8DecodeStep_shorter (b : Nat) (bs : List Nat) :
    (utf8DecodeStep (b :: bs)).2.length ≤ bs.length := by
  unfold utf8DecodeStep
  repeat' split
  all_goals simp_all
  all_goals omega

theorem utf8DecodeAux_nil (fuel : Nat) : utf8DecodeAux fuel [] = [] := by
  cases fuel <;> rfl

theorem utf8DecodeAux_fuel_stable :
    ∀ (fuel1 : Nat) (l : List Nat) (fuel2 : Nat), l.length ≤ fuel1 → l.length ≤ fuel2 →
      utf8DecodeAux fuel1 l = utf8DecodeAux fuel2 l := by
  intro fuel1
  induction fuel1 with
  | zero =>
    intro l fuel2 h1 _
    have : l = [] := List.eq_nil_of_length_eq_zero (by omega)
    rw [this, utf8DecodeAux_nil, utf8DecodeAux_nil]
  | succ fu ih =>
    intro l fuel2 h1 h2
    cases l with
    | nil => rw [utf8DecodeAux_nil, utf8DecodeAux_nil]
    | cons b bs =>
      cases fuel2 with
      | zero => simp at h2
      | succ fu2 =>
        show (utf8DecodeStep (b :: bs)).1 :: utf8DecodeAux fu (utf8DecodeStep (b :: bs)).2
          = (utf8DecodeStep (b :: bs)).1 :: utf8DecodeAux fu2 (utf8DecodeStep (b :: bs)).2
        have hcons := utf8DecodeStep_shorter b bs
        rw [ih (utf8DecodeStep (b :: bs)).2 fu2 (by simp at h1; omega) (by simp at h2; omega)]
theorem utf8EncodeChar_length_pos (c : Nat) : 1 ≤ (utf8EncodeChar c).length := by
  unfold utf8EncodeChar
  repeat' split
  all_goals simp

theorem utf8DecodeStep_encodeChar (c : Nat) (rest : List Nat) (hs : ScalarValue c) :
    utf8DecodeStep (utf8EncodeChar c ++ rest) = (c, rest) := by
  obtain ⟨h1, h2⟩ := hs
  unfold utf8EncodeChar
  by_cases hc1 : c < 0x80
  · rw [if_pos hc1]
    show utf8DecodeStep (c :: rest) = (c, rest)
    simp only [utf8DecodeStep]
    rw [if_pos hc1]
  · rw [if_neg hc1]
    by_cases hc2 : c < 0x800
    · rw [if_pos hc2]
      show utf8DecodeStep ((0xC0 + c / 64) :: (0x80 + c % 64) :: rest) = (c, rest)
      simp only [utf8DecodeStep]
      rw [if_neg (by omega), if_neg (by omega), if_pos (by omega), if_pos (by omega)]
      have hval : (0xC0 + c / 64 - 0xC0) * 64 + (0x80 + c % 64 - 0x80) = c := by omega
      rw [hval]
    · rw [if_neg hc2]
      by_cases hc3 : c < 0x10000
      · rw [if_pos hc3]
        show utf8DecodeStep
          ((0xE0 + c / 4096) :: (0x80 + c / 64 % 64) :: (0x80 + c % 64) :: rest) = (c, rest)
        simp only [utf8DecodeStep]
        rw [if_neg (by omega), if_neg (by omega), if_neg (by omega), if_pos (by omega)]
        rw [if_pos (by
          refine ⟨⟨by omega, by omega⟩, ⟨by omega, by omega⟩, ?_, ?_⟩
          · rintro ⟨hb, hb1⟩
            omega
          · rintro ⟨hb, hb1⟩
            omega)]
        have hval : (0xE0 + c / 4096 - 0xE0) * 4096 + (0x80 + c / 64 % 64 - 0x80) * 64
            + (0x80 + c % 64 - 0x80) = c := by omega
        rw [hval]
      · rw [if_neg hc3]
        show utf8DecodeStep ((0xF0 + c / 0x40000) :: (0x80 + c / 4096 % 64)
          :: (0x80 + c / 64 % 64) :: (0x80 + c % 64) :: rest) = (c, rest)
        simp only [utf8DecodeStep]
        rw [if_neg (by omega), if_neg (by omega), if_neg (by omega), if_neg (by omega),
          if_pos (by omega)]
        rw [if_pos (by
          refine ⟨⟨by omega, by omega⟩, ⟨by omega, by omega⟩, ⟨by omega, by omega⟩, ?_, ?_⟩
          · rintro ⟨hb, hb1⟩
            omega
          · rintro ⟨hb, hb1⟩
            omega)]
        have hval : (0xF0 + c / 0x40000 - 0xF0) * 0x40000 + (0x80 + c / 4096 % 64 - 0x80) * 4096
            + (0x80 + c / 64 % 64 - 0x80) * 64 + (0x80 + c % 64 - 0x80) = c := by omega
        rw [hval]

theorem utf8Encode_cons (c : Nat) (cs : List Nat) :
    utf8Encode (c :: cs) = utf8EncodeChar c ++ utf8Encode cs := by
  unfold utf8Encode
  simp

theorem utf8Decode_encode_append (s rest : List Nat) (hs : ∀ c ∈ s, ScalarValue c) :
    utf8Decode (utf8Encode s ++ rest) = s ++ utf8Decode rest := by
  induction s with
  | nil => simp [utf8Encode]
  | cons c cs ih =>
    rw [utf8Encode_cons, List.append_assoc]
    have hstep := utf8DecodeStep_encodeChar c (utf8Encode cs ++ rest) (hs c (by simp))
    cases he : utf8EncodeChar c with
    | nil =>
      have := utf8EncodeChar_length_pos c
      rw [he] at this
      simp at this
    | cons b bs2 =>
      rw [he] at hstep
      show utf8DecodeAux (b :: (bs2 ++ (utf8Encode cs ++ rest))).length
        (b :: (bs2 ++ (utf8Encode cs ++ rest))) = _
      have hlen : (b :: (bs2 ++ (utf8Encode cs ++ rest))).length
          = (bs2 ++ (utf8Encode cs ++ rest)).length + 1 := rfl
      rw [hlen]
      show (utf8DecodeStep (b :: (bs2 ++ (utf8Encode cs ++ rest)))).1
          :: utf8DecodeAux (bs2 ++ (utf8Encode cs ++ rest)).length
            (utf8DecodeStep (b :: (bs2 ++ (utf8Encode cs ++ rest)))).2 = _
      have hshape : b :: (bs2 ++ (utf8Encode cs ++ rest)) = (b :: bs2) ++ (utf8Encode cs ++ rest) := by
        simp
      rw [hshape, hstep]
      dsimp only
      have hstable : utf8DecodeAux (bs2 ++ (utf8Encode cs ++ rest)).length
          (utf8Encode cs ++ rest) = utf8Decode (utf8Encode cs ++ rest) := by
        apply utf8DecodeAux_fuel_stable
        · simp
        · exact le_refl _
      rw [hstable, ih (fun x hx => hs x (by simp [hx]))]
      simp

theorem utf8Decode_zeros (k : Nat) : utf8Decode (List.replicate k 0) = List.replicate k 0 := by
  induction k with
  | zero => rfl
  | succ n ih =>
    rw [List.replicate_succ]
    show utf8DecodeAux (0 :: List.replicate n 0).length (0 :: List.replicate n 0) = _
    have hlen : (0 :: List.replicate n 0).length = (List.replicate n 0).length + 1 := rfl
    rw [hlen]
    show (utf8DecodeStep (0 :: List.replicate n 0)).1
        :: utf8DecodeAux (List.replicate n 0).length (utf8DecodeStep (0 :: List.replicate n 0)).2
      = _
    have hstep : utf8DecodeStep (0 :: List.replicate n 0) = (0, List.replicate n 0) := by
      simp only [utf8DecodeStep]
      rw [if_pos (by norm_num)]
    rw [hstep]
    dsimp only
    rw [show utf8DecodeAux (List.replicate n 0).length (List.replicate n 0)
      = utf8Decode (List.replicate n 0) from rfl, ih]

/-- Strip the trailing run of NUL characters from a decoded string, the
model of `str.replace(/\0+$/, "")`. -/
def stripTrailingNuls (s : List Nat) : List Nat :=
  (s.reverse.dropWhile (fun c => c == 0)).reverse

theorem stripTrailingNuls_spec (s : List Nat) (k : Nat) (hlast : s.getLast? ≠ some 0) :
    stripTrailingNuls (s ++ List.replicate k 0) = s := by
  unfold stripTrailingNuls
  rw [List.reverse_append, List.reverse_replicate]
  have h1 : List.dropWhile (fun c => c == 0) (List.replicate k 0 ++ s.reverse)
      = List.dropWhile (fun c => c == 0) s.reverse := by
    induction k with
    | zero => rfl
    | succ n ihk =>
      rw [List.replicate_succ, List.cons_append, List.dropWhile_cons]
      simp only [beq_self_eq_true, if_true]
      exact ihk
  rw [h1]
  cases hrev : s.reverse with
  | nil =>
    have hs : s = [] := by simpa using congrArg List.reverse hrev
    simp [hs]
  | cons h t =>
    have hh : h ≠ 0 := by
      intro hcontra
      apply hlast
      have : s.reverse.head? = some h := by rw [hrev]; rfl
      rw [List.head?_reverse] at this
      rw [← hcontra]
      exact this
    rw [List.dropWhile_cons]
    simp only [beq_iff_eq, hh, if_false]
    rw [← hrev, List.reverse_reverse]
/-- Read `n` consecutive bytes starting at `off`, as a list (the contents
of a `Uint8Array` view of that region). -/
def readBytes (m : Mem) (off n : Nat) : List Nat :=
  (List.range n).map (fun i => getByte m (off + i))

/-- Write the bytes of `l` consecutively starting at `off`. -/
def writeBytes : Mem → Nat → List Nat → Mem
  | m, _, [] => m
  | m, off, b :: bs => writeBytes (setByte m off b) (off + 1) bs

/-- Translation of the `string` field getter: decode the `byteLength`
bytes of `structBytes(this, fieldOffset, fieldOffset + byteLength)` as
UTF-8, then trim the trailing run of NUL characters of the decoded text. -/
def stringGet (fieldOffset byteLength : Nat) (dv : DV) (m : Mem) : List Nat :=
  stripTrailingNuls (utf8Decode (readBytes m (dv.off + fieldOffset) byteLength))

/-- Translation of the `string` field setter: zero-fill the whole field
region (`bytes.fill(0)`), then encode the value into it
(`TEXT_ENCODER.encodeInto(value, bytes)`). -/
def stringSet (fieldOffset byteLength : Nat) (dv : DV) (s : List Nat) (m : Mem) : Mem :=
  writeBytes (writeBytes m (dv.off + fieldOffset) (List.replicate byteLength 0))
    (dv.off + fieldOffset) (encodeIntoList s byteLength)

theorem length_writeBytes (m : Mem) (off : Nat) (l : List Nat) :
    (writeBytes m off l).length = m.length := by
  induction l generalizing m off with
  | nil => rfl
  | cons b bs ih => rw [writeBytes, ih, length_setByte]

theorem memOk_writeBytes {m : Mem} (hm : MemOk m) (off : Nat) (l : List Nat) :
    MemOk (writeBytes m off l) := by
  induction l generalizing m off with
  | nil => exact hm
  | cons b bs ih => exact ih (memOk_setByte hm off b) (off + 1)

theorem getByte_writeBytes_frame (m : Mem) (off : Nat) (l : List Nat) {j : Nat}
    (hj : j < off ∨ off + l.length ≤ j) :
    getByte (writeBytes m off l) j = getByte m j := by
  induction l generalizing m off with
  | nil => rfl
  | cons b bs ih =>
    rw [writeBytes, ih _ _ (by simp at hj; omega),
      getByte_setByte_ne _ (by simp at hj; omega) b]

theorem getByte_writeBytes_in {m : Mem} {off : Nat} {l : List Nat} {j : Nat}
    (hbound : off + l.length ≤ m.length) (h1 : off ≤ j) (h2 : j < off + l.length) :
    getByte (writeBytes m off l) j = l.getD (j - off) 0 % 256 := by
  induction l generalizing m off with
  | nil => simp at h2; omega
  | cons b bs ih =>
    rw [writeBytes]
    by_cases hj : j = off
    · subst hj
      rw [getByte_writeBytes_frame _ _ _ (Or.inl (by omega)),
        getByte_setByte_self (by simp at hbound; omega) b]
      simp
    · rw [ih (m := setByte m off b) (by rw [length_setByte]; simp at hbound ⊢; omega)
        (by omega) (by simp at h2 ⊢; omega)]
      have hidx : j - off = (j - (off + 1)) + 1 := by omega
      rw [hidx]
      rfl

theorem utf8EncodeChar_bytes_lt (c : Nat) (hc : c < 0x110000) :
    ∀ b ∈ utf8EncodeChar c, b < 256 := by
  intro b hb
  unfold utf8EncodeChar at hb
  by_cases h1 : c < 0x80
  · rw [if_pos h1] at hb
    simp at hb
    omega
  · rw [if_neg h1] at hb
    by_cases h2 : c < 0x800
    · rw [if_pos h2] at hb
      simp at hb
      rcases hb with hb | hb <;> omega
    · rw [if_neg h2] at hb
      by_cases h3 : c < 0x10000
      · rw [if_pos h3] at hb
        simp at hb
        rcases hb with hb | hb | hb <;> omega
      · rw [if_neg h3] at hb
        simp at hb
        rcases hb with hb | hb | hb | hb <;> omega

theorem encodeIntoList_bytes_lt (s : List Nat) (L : Nat) (hs : ∀ c ∈ s, ScalarValue c) :
    ∀ b ∈ encodeIntoList s L, b < 256 := by
  induction s generalizing L with
  | nil =>
    intro b hb
    simp [encodeIntoList] at hb
  | cons c cs ih =>
    intro b hb
    rw [encodeIntoList] at hb
    split at hb
    · rcases List.mem_append.mp hb with hb | hb
      · exact utf8EncodeChar_bytes_lt c (hs c (by simp)).1 b hb
      · exact ih _ (fun x hx => hs x (by simp [hx])) b hb
    · simp at hb

theorem encodeIntoList_length_le (s : List Nat) (L : Nat) :
    (encodeIntoList s L).length ≤ L := by
  induction s generalizing L with
  | nil => simp [encodeIntoList]
  | cons c cs ih =>
    rw [encodeIntoList]
    split
    · rename_i hfits
      simp only [List.length_append]
      have := ih (L - (utf8EncodeChar c).length)
      omega
    · simp

theorem encodeIntoList_of_fits (s : List Nat) (L : Nat)
    (h : (utf8Encode s).length ≤ L) : encodeIntoList s L = utf8Encode s := by
  induction s generalizing L with
  | nil => simp [encodeIntoList, utf8Encode]
  | cons c cs ih =>
    rw [utf8Encode_cons] at h ⊢
    rw [encodeIntoList]
    simp only [List.length_append] at h
    rw [if_pos (by omega)]
    rw [ih _ (by omega)]

/-- The specification-side description of the written text: the longest
prefix of `s` whose UTF-8 encoding fits in `L` bytes.  `s.inits` lists the
prefixes of `s` in increasing length, so the last fitting one is the
longest. -/
def longestFittingPrefix (s : List Nat) (L : Nat) : List Nat :=
  (s.inits.filter (fun p => decide ((utf8Encode p).length ≤ L))).getLastD []

theorem getLastD_map {α β : Type} (f : α → β) (l : List α) (h : l ≠ []) (d : α)
    (d' : β) : (l.map f).getLastD d' = f (l.getLastD d) := by
  induction l generalizing d d' with
  | nil => exact absurd rfl h
  | cons a l ih =>
    rw [List.map_cons, List.getLastD_cons, List.getLastD_cons]
    cases l with
    | nil => rfl
    | cons b l2 => exact ih (by simp) a (f a)

/-- The greedy `encodeInto` model writes exactly the encoding of the
longest fitting prefix: the refinement of the source behaviour to the
specification's wording. -/
theorem encodeIntoList_eq_longest (s : List Nat) (L : Nat) :
    encodeIntoList s L = utf8Encode (longestFittingPrefix s L) := by
  induction s generalizing L with
  | nil =>
    simp [encodeIntoList, longestFittingPrefix, utf8Encode]
  | cons c cs ih =>
    unfold longestFittingPrefix
    rw [List.inits_cons, List.filter_cons, if_pos (by simp [utf8Encode]),
      List.getLastD_cons, List.filter_map]
    simp only [encodeIntoList]
    by_cases hc : (utf8EncodeChar c).length ≤ L
    · rw [if_pos hc]
      have hcongr : cs.inits.filter
            ((fun p => decide ((utf8Encode p).length ≤ L)) ∘ (fun t => c :: t))
          = cs.inits.filter
            (fun p => decide ((utf8Encode p).length ≤ L - (utf8EncodeChar c).length)) := by
        apply List.filter_congr
        intro q _
        simp only [Function.comp_apply, utf8Encode_cons, List.length_append,
          decide_eq_decide]
        omega
      rw [hcongr]
      have hne : cs.inits.filter
          (fun p => decide ((utf8Encode p).length ≤ L - (utf8EncodeChar c).length)) ≠ [] := by
        apply List.ne_nil_of_mem (a := ([] : List Nat))
        rw [List.mem_filter]
        exact ⟨(List.mem_inits _ _).mpr List.nil_prefix, by simp [utf8Encode]⟩
      rw [getLastD_map _ _ hne []]
      rw [utf8Encode_cons]
      rw [ih]
      rfl
    · rw [if_neg hc]
      have hnil : cs.inits.filter
          ((fun p => decide ((utf8Encode p).length ≤ L)) ∘ (fun t => c :: t)) = [] := by
        rw [List.filter_eq_nil_iff]
        intro q _
        simp only [Function.comp_apply, utf8Encode_cons, List.length_append,
          decide_eq_true_eq]
        omega
      rw [hnil]
      simp [utf8Encode]
theorem length_readBytes (m : Mem) (off n : Nat) : (readBytes m off n).length = n := by
  simp [readBytes]

theorem length_stringSet (o L : Nat) (dv : DV) (s : List Nat) (m : Mem) :
    (stringSet o L dv s m).length = m.length := by
  unfold stringSet
  rw [length_writeBytes, length_writeBytes]

theorem getByte_stringSet_frame (o L : Nat) (dv : DV) (s : List Nat) (m : Mem)
    {j : Nat} (hj : j < dv.off + o ∨ dv.off + o + L ≤ j) :
    getByte (stringSet o L dv s m) j = getByte m j := by
  have hle := encodeIntoList_length_le s L
  unfold stringSet
  rw [getByte_writeBytes_frame _ _ _ (by omega)]
  rw [getByte_writeBytes_frame _ _ _ (by simp; omega)]

theorem readBytes_stringSet (o L : Nat) (dv : DV) (s : List Nat) (m : Mem)
    (hbound : dv.off + o + L ≤ m.length) (hs : ∀ c ∈ s, ScalarValue c) :
    readBytes (stringSet o L dv s m) (dv.off + o) L
      = encodeIntoList s L ++ List.replicate (L - (encodeIntoList s L).length) 0 := by
  have hle := encodeIntoList_length_le s L
  apply List.ext_getElem
  · rw [length_readBytes]
    simp only [List.length_append, List.length_replicate]
    omega
  · intro i h1 h2
    rw [length_readBytes] at h1
    simp only [readBytes, List.getElem_map, List.getElem_range]
    unfold stringSet
    by_cases hi : i < (encodeIntoList s L).length
    · rw [getByte_writeBytes_in (by rw [length_writeBytes]; omega) (by omega)
        (by omega)]
      have hidx : dv.off + o + i - (dv.off + o) = i := by omega
      rw [hidx, List.getD_eq_getElem _ _ hi,
        Nat.mod_eq_of_lt (encodeIntoList_bytes_lt s L hs _ (List.getElem_mem hi)),
        List.getElem_append_left hi]
    · rw [getByte_writeBytes_frame _ _ _ (Or.inr (by omega))]
      rw [getByte_writeBytes_in (by simp only [List.length_replicate]; omega)
        (by omega) (by simp only [List.length_replicate]; omega)]
      have hidx : dv.off + o + i - (dv.off + o) = i := by omega
      rw [hidx, List.getD_eq_getElem _ _ (by simp only [List.length_replicate]; omega),
        List.getElem_replicate,
        List.getElem_append_right (by omega)]
      simp

/-- Translation of the `string` field setter including its byte-region
construction (`structBytes(this, fieldOffset, fieldOffset + byteLength)`),
which is the only statement of the setter that can throw: on success the
region of `bytes.len` bytes is zero-filled and then encoded into. -/
def stringSetE (fieldOffset byteLength : Nat) (dv : DV) (s : List Nat) (m : Mem) :
    Except JSErr Mem :=
  match structBytes m.length dv (some (fieldOffset : Int))
      (some ((fieldOffset : Int) + (byteLength : Int))) with
  | .error e => .error e
  | .ok bytes =>
    .ok (writeBytes (writeBytes m bytes.off (List.replicate bytes.len 0))
      bytes.off (encodeIntoList s bytes.len))

theorem structBytes_field (o L : Nat) (dv : DV) (bufLen : Nat)
    (hbound : dv.off + o + L ≤ bufLen) :
    structBytes bufLen dv (some (o : Int)) (some ((o : Int) + (L : Int)))
      = .ok ⟨dv.off + o, L⟩ := by
  simp only [structBytes, uint8ArrayNew, Option.getD_some]
  rw [if_neg (by omega)]
  have h1 : ((dv.off : Int) + (o : Int)).toNat = dv.off + o := by omega
  have h2 : ((o : Int) + (L : Int) - (o : Int)).toNat = L := by omega
  rw [h1, h2]

/-- C7: writing a fixed-length string field of `byteLength` bytes raises
no error even when the encoding exceeds `byteLength` (the setter's
byte-region construction succeeds and everything after it is total), and
afterwards the field region holds exactly the UTF-8 encoding of the
longest prefix of the value whose encoding fits, followed by the zero
fill from `bytes.fill(0)` on every remaining byte. -/
theorem stringSet_spec (o L : Nat) (dv : DV) (s : List Nat) (m : Mem)
    (hbound : dv.off + o + L ≤ m.length) (hs : ∀ c ∈ s, ScalarValue c) :
    stringSetE o L dv s m = .ok (stringSet o L dv s m) ∧
    readBytes (stringSet o L dv s m) (dv.off + o) L
      = utf8Encode (longestFittingPrefix s L)
        ++ List.replicate (L - (utf8Encode (longestFittingPrefix s L)).length) 0 := by
  constructor
  · simp only [stringSetE, structBytes_field o L dv m.length hbound]
    rfl
  · rw [readBytes_stringSet o L dv s m hbound hs, encodeIntoList_eq_longest]

/-- Witness for the string-write theorem: a 3-byte field receives the
text `"héj"` (whose encoding needs 4 bytes); no error, the region becomes
`68 C3 A9` — the encoding of the longest fitting prefix `"hé"` — and the
bytes outside the field keep their old value `FF`. -/
theorem stringSet_spec_witness :
    ((⟨0, 8⟩ : DV).off + 1 + 3 ≤ (List.replicate 8 0xFF : Mem).length
      ∧ (∀ c ∈ [0x68, 0xE9, 0x6A], ScalarValue c))
    ∧ (stringSetE 1 3 ⟨0, 8⟩ [0x68, 0xE9, 0x6A] (List.replicate 8 0xFF)
        = .ok (stringSet 1 3 ⟨0, 8⟩ [0x68, 0xE9, 0x6A] (List.replicate 8 0xFF)) ∧
      readBytes (stringSet 1 3 ⟨0, 8⟩ [0x68, 0xE9, 0x6A] (List.replicate 8 0xFF))
          ((⟨0, 8⟩ : DV).off + 1) 3
        = utf8Encode (longestFittingPrefix [0x68, 0xE9, 0x6A] 3)
          ++ List.replicate
            (3 - (utf8Encode (longestFittingPrefix [0x68, 0xE9, 0x6A] 3)).length) 0) :=
  ⟨⟨by decide, by decide⟩,
    stringSet_spec 1 3 ⟨0, 8⟩ [0x68, 0xE9, 0x6A] (List.replicate 8 0xFF)
      (by decide) (by decide)⟩
/-- Translation of the `f16` field getter: `getFloat16(fieldOffset, true)`. -/
def f16Get (fieldOffset : Nat) (dv : DV) (m : Mem) : Nat :=
  dvGetFloat16 m dv fieldOffset true

/-- Translation of the `f16` field setter: `setFloat16(fieldOffset, value, true)`. -/
def f16Set (fieldOffset : Nat) (dv : DV) (v : Nat) (m : Mem) : Mem :=
  dvSetFloat16 m dv fieldOffset true v

/-- Translation of the `f32` field getter: `getFloat32(fieldOffset, true)`. -/
def f32Get (fieldOffset : Nat) (dv : DV) (m : Mem) : Nat :=
  dvGetFloat32 m dv fieldOffset true

/-- Translation of the `f32` field setter: `setFloat32(fieldOffset, value, true)`. -/
def f32Set (fieldOffset : Nat) (dv : DV) (v : Nat) (m : Mem) : Mem :=
  dvSetFloat32 m dv fieldOffset true v

/-- Translation of the `f64` field getter: `getFloat64(fieldOffset, true)`. -/
def f64Get (fieldOffset : Nat) (dv : DV) (m : Mem) : Nat :=
  dvGetFloat64 m dv fieldOffset true

/-- Translation of the `f64` field setter: `setFloat64(fieldOffset, value, true)`. -/
def f64Set (fieldOffset : Nat) (dv : DV) (v : Nat) (m : Mem) : Mem :=
  dvSetFloat64 m dv fieldOffset true v

/-- Translation of the `f16be` field getter: `getFloat16(fieldOffset, false)`. -/
def f16beGet (fieldOffset : Nat) (dv : DV) (m : Mem) : Nat :=
  dvGetFloat16 m dv fieldOffset false

/-- Translation of the `f16be` field setter: `setFloat16(fieldOffset, value, false)`. -/
def f16beSet (fieldOffset : Nat) (dv : DV) (v : Nat) (m : Mem) : Mem :=
  dvSetFloat16 m dv fieldOffset false v

/-- Translation of the `f32be` field getter: `getFloat32(fieldOffset, false)`. -/
def f32beGet (fieldOffset : Nat) (dv : DV) (m : Mem) : Nat :=
  dvGetFloat32 m dv fieldOffset false

/-- Translation of the `f32be` field setter: `setFloat32(fieldOffset, value, false)`. -/
def f32beSet (fieldOffset : Nat) (dv : DV) (v : Nat) (m : Mem) : Mem :=
  dvSetFloat32 m dv fieldOffset false v

/-- Translation of the `f64be` field getter: `getFloat64(fieldOffset, false)`. -/
def f64beGet (fieldOffset : Nat) (dv : DV) (m : Mem) : Nat :=
  dvGetFloat64 m dv fieldOffset false

/-- Translation of the `f64be` field setter: `setFloat64(fieldOffset, value, false)`. -/
def f64beSet (fieldOffset : Nat) (dv : DV) (v : Nat) (m : Mem) : Mem :=
  dvSetFloat64 m dv fieldOffset false v

/-- The leaf field codecs exported by `fields.ts` (`substruct` composes
structs and is not a leaf value codec).  The arbitrary-width and string
codecs carry their configured `byteLength`. -/
inductive Codec where
  | u8c | u16c | u32c | u64c | i8c | i16c | i32c | i64c
  | u16bec | u32bec | u64bec | i16bec | i32bec | i64bec
  | biguintlec (byteLength : Nat) | bigintlec (byteLength : Nat)
  | f16c | f32c | f64c | f16bec | f32bec | f64bec
  | stringc (byteLength : Nat)
  | boolc
deriving DecidableEq

/-- The number of buffer bytes a field of the codec occupies. -/
def Codec.width : Codec → Nat
  | .u8c | .i8c | .boolc => 1
  | .u16c | .i16c | .u16bec | .i16bec | .f16c | .f16bec => 2
  | .u32c | .i32c | .u32bec | .i32bec | .f32c | .f32bec => 4
  | .u64c | .i64c | .u64bec | .i64bec | .f64c | .f64bec => 8
  | .biguintlec L | .bigintlec L | .stringc L => L

/-- The type of the JS value a field of the codec reads and writes:
numbers and bigints as integers, JS numbers of the float codecs as their
binary64 patterns, strings as lists of code points, booleans as `Bool`. -/
@[reducible] def Codec.Val : Codec → Type
  | .f16c | .f32c | .f64c | .f16bec | .f32bec | .f64bec => Nat
  | .stringc _ => List Nat
  | .boolc => Bool
  | _ => Int

/-- The getter of each codec, dispatching to its translated field getter. -/
def readField : (c : Codec) → Nat → DV → Mem → Codec.Val c
  | .u8c, o, dv, m => u8Get o dv m
  | .u16c, o, dv, m => u16Get o dv m
  | .u32c, o, dv, m => u32Get o dv m
  | .u64c, o, dv, m => u64Get o dv m
  | .i8c, o, dv, m => i8Get o dv m
  | .i16c, o, dv, m => i16Get o dv m
  | .i32c, o, dv, m => i32Get o dv m
  | .i64c, o, dv, m => i64Get o dv m
  | .u16bec, o, dv, m => u16beGet o dv m
  | .u32bec, o, dv, m => u32beGet o dv m
  | .u64bec, o, dv, m => u64beGet o dv m
  | .i16bec, o, dv, m => i16beGet o dv m
  | .i32bec, o, dv, m => i32beGet o dv m
  | .i64bec, o, dv, m => i64beGet o dv m
  | .biguintlec L, o, dv, m => biguintleGet o L dv m
  | .bigintlec L, o, dv, m => bigintleGet o L dv m
  | .f16c, o, dv, m => f16Get o dv m
  | .f32c, o, dv, m => f32Get o dv m
  | .f64c, o, dv, m => f64Get o dv m
  | .f16bec, o, dv, m => f16beGet o dv m
  | .f32bec, o, dv, m => f32beGet o dv m
  | .f64bec, o, dv, m => f64beGet o dv m
  | .stringc L, o, dv, m => stringGet o L dv m
  | .boolc, o, dv, m => boolGet o dv m

/-- The setter of each codec, dispatching to its translated field setter. -/
def writeField : (c : Codec) → Nat → DV → Codec.Val c → Mem → Mem
  | .u8c, o, dv, v, m => u8Set o dv v m
  | .u16c, o, dv, v, m => u16Set o dv v m
  | .u32c, o, dv, v, m => u32Set o dv v m
  | .u64c, o, dv, v, m => u64Set o dv v m
  | .i8c, o, dv, v, m => i8Set o dv v m
  | .i16c, o, dv, v, m => i16Set o dv v m
  | .i32c, o, dv, v, m => i32Set o dv v m
  | .i64c, o, dv, v, m => i64Set o dv v m
  | .u16bec, o, dv, v, m => u16beSet o dv v m
  | .u32bec, o, dv, v, m => u32beSet o dv v m
  | .u64bec, o, dv, v, m => u64beSet o dv v m
  | .i16bec, o, dv, v, m => i16beSet o dv v m
  | .i32bec, o, dv, v, m => i32beSet o dv v m
  | .i64bec, o, dv, v, m => i64beSet o dv v m
  | .biguintlec L, o, dv, v, m => biguintleSet o L dv v m
  | .bigintlec L, o, dv, v, m => bigintleSet o L dv v m
  | .f16c, o, dv, v, m => f16Set o dv v m
  | .f32c, o, dv, v, m => f32Set o dv v m
  | .f64c, o, dv, v, m => f64Set o dv v m
  | .f16bec, o, dv, v, m => f16beSet o dv v m
  | .f32bec, o, dv, v, m => f32beSet o dv v m
  | .f64bec, o, dv, v, m => f64beSet o dv v m
  | .stringc L, o, dv, v, m => stringSet o L dv v m
  | .boolc, o, dv, v, m => boolSet o dv v m

/-- Exact representability of a value in a codec: integers inside the
field's range, binary64 patterns that are canonical-NaN well-formed and
exactly a widened pattern of the narrow format (i.e. already rounded to
the declared precision), strings of scalar values whose encoding fits and
without trailing NULs, and any boolean. -/
def Codec.repOk : (c : Codec) → Codec.Val c → Prop
  | .u8c, v => 0 ≤ v ∧ v < (2 : Int) ^ 8
  | .u16c, v => 0 ≤ v ∧ v < (2 : Int) ^ 16
  | .u32c, v => 0 ≤ v ∧ v < (2 : Int) ^ 32
  | .u64c, v => 0 ≤ v ∧ v < (2 : Int) ^ 64
  | .i8c, v => -((2 : Int) ^ 7) ≤ v ∧ v < (2 : Int) ^ 7
  | .i16c, v => -((2 : Int) ^ 15) ≤ v ∧ v < (2 : Int) ^ 15
  | .i32c, v => -((2 : Int) ^ 31) ≤ v ∧ v < (2 : Int) ^ 31
  | .i64c, v => -((2 : Int) ^ 63) ≤ v ∧ v < (2 : Int) ^ 63
  | .u16bec, v => 0 ≤ v ∧ v < (2 : Int) ^ 16
  | .u32bec, v => 0 ≤ v ∧ v < (2 : Int) ^ 32
  | .u64bec, v => 0 ≤ v ∧ v < (2 : Int) ^ 64
  | .i16bec, v => -((2 : Int) ^ 15) ≤ v ∧ v < (2 : Int) ^ 15
  | .i32bec, v => -((2 : Int) ^ 31) ≤ v ∧ v < (2 : Int) ^ 31
  | .i64bec, v => -((2 : Int) ^ 63) ≤ v ∧ v < (2 : Int) ^ 63
  | .biguintlec L, v => 0 ≤ v ∧ v < (2 : Int) ^ (8 * L)
  | .bigintlec L, v => 1 ≤ L ∧ -((2 : Int) ^ (L * 8 - 1)) ≤ v ∧ v < (2 : Int) ^ (L * 8 - 1)
  | .f16c, v => jsNumOk v ∧ ∃ w, w < 2 ^ 16 ∧ (isNaNBits 5 10 w → w = canonNaN 5 10)
      ∧ v = fpWiden 5 10 w
  | .f32c, v => jsNumOk v ∧ ∃ w, w < 2 ^ 32 ∧ (isNaNBits 8 23 w → w = canonNaN 8 23)
      ∧ v = fpWiden 8 23 w
  | .f64c, v => jsNumOk v
  | .f16bec, v => jsNumOk v ∧ ∃ w, w < 2 ^ 16 ∧ (isNaNBits 5 10 w → w = canonNaN 5 10)
      ∧ v = fpWiden 5 10 w
  | .f32bec, v => jsNumOk v ∧ ∃ w, w < 2 ^ 32 ∧ (isNaNBits 8 23 w → w = canonNaN 8 23)
      ∧ v = fpWiden 8 23 w
  | .f64bec, v => jsNumOk v
  | .stringc L, v => (∀ c ∈ v, ScalarValue c) ∧ (utf8Encode v).length ≤ L
      ∧ v.getLast? ≠ some 0
  | .boolc, _ => True
/-- State-threaded model of a host `DataView.getUintN` call: the host
getter reads from the buffer and returns it with no store performed. -/
def dvGetUintM (m : Mem) (dv : DV) (o n : Nat) (le : Bool) : Nat × Mem :=
  (dvGetUint m dv o n le, m)

/-- State-threaded model of a host `DataView.getIntN` call. -/
def dvGetIntM (m : Mem) (dv : DV) (o n : Nat) (le : Bool) : Int × Mem :=
  (dvGetInt m dv o n le, m)

/-- State-threaded model of a host `getFloat16` call. -/
def dvGetFloat16M (m : Mem) (dv : DV) (o : Nat) (le : Bool) : Nat × Mem :=
  (dvGetFloat16 m dv o le, m)

/-- State-threaded model of a host `getFloat32` call. -/
def dvGetFloat32M (m : Mem) (dv : DV) (o : Nat) (le : Bool) : Nat × Mem :=
  (dvGetFloat32 m dv o le, m)

/-- State-threaded model of a host `getFloat64` call. -/
def dvGetFloat64M (m : Mem) (dv : DV) (o : Nat) (le : Bool) : Nat × Mem :=
  (dvGetFloat64 m dv o le, m)

/-- One iteration of the `biguintle`/`bigintle` getter loop in
state-threaded form: a `getUint8(fieldOffset + i)` call, or-ed into the
accumulator shifted by `8 * i` bits. -/
def bigReadStep (dv : DV) (o : Nat) (p : Nat × Mem) (i : Nat) : Nat × Mem :=
  let r := dvGetUintM p.2 dv (o + i) 1 true
  (p.1 ||| (r.1 <<< (8 * i)), r.2)

/-- The getter of each codec in state-threaded form: every host call it
performs returns the buffer unchanged, made explicit by passing the state
through each call (and through each iteration of the big-integer loop). -/
def readFieldM : (c : Codec) → Nat → DV → Mem → Codec.Val c × Mem
  | .u8c, o, dv, m =>
    let r := dvGetUintM m dv o 1 true
    ((r.1 : Int), r.2)
  | .u16c, o, dv, m =>
    let r := dvGetUintM m dv o 2 true
    ((r.1 : Int), r.2)
  | .u32c, o, dv, m =>
    let r := dvGetUintM m dv o 4 true
    ((r.1 : Int), r.2)
  | .u64c, o, dv, m =>
    let r := dvGetUintM m dv o 8 true
    ((r.1 : Int), r.2)
  | .i8c, o, dv, m => dvGetIntM m dv o 1 true
  | .i16c, o, dv, m => dvGetIntM m dv o 2 true
  | .i32c, o, dv, m => dvGetIntM m dv o 4 true
  | .i64c, o, dv, m => dvGetIntM m dv o 8 true
  | .u16bec, o, dv, m =>
    let r := dvGetUintM m dv o 2 false
    ((r.1 : Int), r.2)
  | .u32bec, o, dv, m =>
    let r := dvGetUintM m dv o 4 false
    ((r.1 : Int), r.2)
  | .u64bec, o, dv, m =>
    let r := dvGetUintM m dv o 8 false
    ((r.1 : Int), r.2)
  | .i16bec, o, dv, m => dvGetIntM m dv o 2 false
  | .i32bec, o, dv, m => dvGetIntM m dv o 4 false
  | .i64bec, o, dv, m => dvGetIntM m dv o 8 false
  | .biguintlec L, o, dv, m =>
    let p := (List.range L).foldl (bigReadStep dv o) (0, m)
    (((p.1 : Nat) : Int), p.2)
  | .bigintlec L, o, dv, m =>
    let p := (List.range L).foldl (bigReadStep dv o) (0, m)
    (asIntN (L * 8) ((p.1 : Nat) : Int), p.2)
  | .f16c, o, dv, m => dvGetFloat16M m dv o true
  | .f32c, o, dv, m => dvGetFloat32M m dv o true
  | .f64c, o, dv, m => dvGetFloat64M m dv o true
  | .f16bec, o, dv, m => dvGetFloat16M m dv o false
  | .f32bec, o, dv, m => dvGetFloat32M m dv o false
  | .f64bec, o, dv, m => dvGetFloat64M m dv o false
  | .stringc L, o, dv, m =>
    (stripTrailingNuls (utf8Decode (readBytes m (dv.off + o) L)), m)
  | .boolc, o, dv, m =>
    let r := dvGetUintM m dv o 1 true
    (if r.1 = 0 then false else true, r.2)

theorem foldl_bigReadStep (dv : DV) (o : Nat) (l : List Nat) (a : Nat) (m : Mem) :
    l.foldl (bigReadStep dv o) (a, m)
      = (l.foldl (fun acc i => acc ||| (getByte m (dv.off + (o + i)) <<< (8 * i))) a, m) := by
  induction l generalizing a with
  | nil => rfl
  | cons i l ih =>
    rw [List.foldl_cons, List.foldl_cons]
    have hstep : bigReadStep dv o (a, m) i
        = (a ||| (getByte m (dv.off + (o + i)) <<< (8 * i)), m) := by
      simp only [bigReadStep, dvGetUintM, dvGetUint, if_pos, getBytesLE_one]
    rw [hstep, ih]

/-- The state-threaded getters return the buffer unchanged. -/
theorem readFieldM_pure (c : Codec) (o : Nat) (dv : DV) (m : Mem) :
    (readFieldM c o dv m).2 = m := by
  cases c
  case biguintlec L =>
    show ((List.range L).foldl (bigReadStep dv o) (0, m)).2 = m
    rw [foldl_bigReadStep]
  case bigintlec L =>
    show ((List.range L).foldl (bigReadStep dv o) (0, m)).2 = m
    rw [foldl_bigReadStep]
  all_goals rfl

set_option maxRecDepth 4000 in
/-- The state-threaded getters compute the same value as the direct
translations. -/
theorem readFieldM_fst (c : Codec) (o : Nat) (dv : DV) (m : Mem) :
    (readFieldM c o dv m).1 = readField c o dv m := by
  cases c
  case biguintlec L =>
    show ((((List.range L).foldl (bigReadStep dv o) (0, m)).1 : Nat) : Int) = _
    rw [foldl_bigReadStep]
    rfl
  case bigintlec L =>
    show asIntN (L * 8) ((((List.range L).foldl (bigReadStep dv o) (0, m)).1 : Nat) : Int) = _
    rw [foldl_bigReadStep]
    rfl
  case u8c => rfl
  case u16c => rfl
  case u32c => rfl
  case u64c => rfl
  case i8c => rfl
  case i16c => simp only [readFieldM, dvGetIntM, readField, i16Get]
  case i32c => simp only [readFieldM, dvGetIntM, readField, i32Get]
  case i64c => simp only [readFieldM, dvGetIntM, readField, i64Get]
  case u16bec => rfl
  case u32bec => rfl
  case u64bec => rfl
  case i16bec => simp only [readFieldM, dvGetIntM, readField, i16beGet]
  case i32bec => simp only [readFieldM, dvGetIntM, readField, i32beGet]
  case i64bec => simp only [readFieldM, dvGetIntM, readField, i64beGet]
  case f16c => rfl
  case f32c => rfl
  case f64c => rfl
  case f16bec => rfl
  case f32bec => rfl
  case f64bec => rfl
  case stringc L => rfl
  case boolc => rfl
theorem toUintN_lt (n : Nat) (v : Int) : toUintN (8 * n) v < 256 ^ n := by
  unfold toUintN
  have h1 : v % (2 : Int) ^ (8 * n) < (2 : Int) ^ (8 * n) :=
    Int.emod_lt_of_pos _ (by positivity)
  have h2 : (((256 : Nat) ^ n : Nat) : Int) = (2 : Int) ^ (8 * n) := by
    push_cast
    rw [pow_mul]
    norm_num
  omega

theorem toUintN_cast (n : Nat) (v : Int) :
    ((toUintN (8 * n) v : Nat) : Int) = v % (2 : Int) ^ (8 * n) := by
  unfold toUintN
  exact Int.toNat_of_nonneg (Int.emod_nonneg _ (by positivity))

theorem dvGetUint_dvSetUint {m : Mem} {dv : DV} {o n : Nat} (le : Bool) (v : Int)
    (hbound : dv.off + o + n ≤ m.length) :
    ((dvGetUint (dvSetUint m dv o n le v) dv o n le : Nat) : Int)
      = v % (2 : Int) ^ (8 * n) := by
  have hlt := toUintN_lt n v
  unfold dvGetUint dvSetUint
  cases le
  · rw [if_neg (by simp), if_neg (by simp), getBytesBE_setBytesBE hbound,
      Nat.mod_eq_of_lt hlt, toUintN_cast]
  · rw [if_pos rfl, if_pos rfl, getBytesLE_setBytesLE hbound,
      Nat.mod_eq_of_lt hlt, toUintN_cast]

theorem dvGetInt_dvSetInt {m : Mem} {dv : DV} {o n : Nat} (le : Bool) (v : Int)
    (hbound : dv.off + o + n ≤ m.length) :
    dvGetInt (dvSetInt m dv o n le v) dv o n le = asIntN (8 * n) v := by
  unfold dvGetInt dvSetInt
  rw [dvGetUint_dvSetUint le v hbound, asIntN_emod]

theorem biguintleGet_biguintleSet {m : Mem} (hm : MemOk m) {dv : DV} {o L : Nat}
    (v : Int) (hbound : dv.off + o + L ≤ m.length) :
    biguintleGet o L dv (biguintleSet o L dv v m) = v % (2 : Int) ^ (8 * L) := by
  rw [biguintleSet_eq o L dv v m hbound,
    biguintleGet_eq (memOk_setBytesLE hm _ _ _) o L dv,
    getBytesLE_setBytesLE hbound, Nat.mod_eq_of_lt (toUintN_lt L v), toUintN_cast]

theorem bigintleGet_bigintleSet {m : Mem} (hm : MemOk m) {dv : DV} {o L : Nat}
    (v : Int) (hbound : dv.off + o + L ≤ m.length) :
    bigintleGet o L dv (bigintleSet o L dv v m) = asIntN (L * 8) v := by
  unfold bigintleGet bigintleSet
  rw [biguintleGet_biguintleSet hm v hbound, mul_comm 8 L, asIntN_emod]

theorem toJSNum_eq_self {b : Nat} (h : isNaN64 b → b = canonNaN64) : toJSNum b = b := by
  unfold toJSNum
  split
  · rename_i hc
    exact (h hc).symm
  · rfl

theorem dvGetFloat16_dvSetFloat16 {m : Mem} {dv : DV} {o : Nat} (le : Bool) {w : Nat}
    (hw : w < 2 ^ 16) (hnan : isNaNBits 5 10 w → w = canonNaN 5 10)
    (hjs : isNaN64 (fpWiden 5 10 w) → fpWiden 5 10 w = canonNaN64)
    (hbound : dv.off + o + 2 ≤ m.length) :
    dvGetFloat16 (dvSetFloat16 m dv o le (fpWiden 5 10 w)) dv o le
      = fpWiden 5 10 w := by
  have hn : fpNarrow 5 10 (fpWiden 5 10 w) = w :=
    fpNarrow_fpWiden (by norm_num) (by norm_num) (by norm_num) (by norm_num)
      (by norm_num) (by norm_num at hw ⊢; omega) hnan
  unfold dvGetFloat16 dvSetFloat16
  cases le
  · rw [if_neg (by simp), if_neg (by simp), getBytesBE_setBytesBE hbound, hn,
      Nat.mod_eq_of_lt (by norm_num at hw ⊢; omega)]
    exact toJSNum_eq_self hjs
  · rw [if_pos rfl, if_pos rfl, getBytesLE_setBytesLE hbound, hn,
      Nat.mod_eq_of_lt (by norm_num at hw ⊢; omega)]
    exact toJSNum_eq_self hjs

theorem dvGetFloat32_dvSetFloat32 {m : Mem} {dv : DV} {o : Nat} (le : Bool) {w : Nat}
    (hw : w < 2 ^ 32) (hnan : isNaNBits 8 23 w → w = canonNaN 8 23)
    (hjs : isNaN64 (fpWiden 8 23 w) → fpWiden 8 23 w = canonNaN64)
    (hbound : dv.off + o + 4 ≤ m.length) :
    dvGetFloat32 (dvSetFloat32 m dv o le (fpWiden 8 23 w)) dv o le
      = fpWiden 8 23 w := by
  have hn : fpNarrow 8 23 (fpWiden 8 23 w) = w :=
    fpNarrow_fpWiden (by norm_num) (by norm_num) (by norm_num) (by norm_num)
      (by norm_num) (by norm_num at hw ⊢; omega) hnan
  unfold dvGetFloat32 dvSetFloat32
  cases le
  · rw [if_neg (by simp), if_neg (by simp), getBytesBE_setBytesBE hbound, hn,
      Nat.mod_eq_of_lt (by norm_num at hw ⊢; omega)]
    exact toJSNum_eq_self hjs
  · rw [if_pos rfl, if_pos rfl, getBytesLE_setBytesLE hbound, hn,
      Nat.mod_eq_of_lt (by norm_num at hw ⊢; omega)]
    exact toJSNum_eq_self hjs

theorem dvGetFloat64_dvSetFloat64 {m : Mem} {dv : DV} {o : Nat} (le : Bool) {b : Nat}
    (hb : b < 2 ^ 64) (hjs : isNaN64 b → b = canonNaN64)
    (hbound : dv.off + o + 8 ≤ m.length) :
    dvGetFloat64 (dvSetFloat64 m dv o le b) dv o le = b := by
  unfold dvGetFloat64 dvSetFloat64
  cases le
  · rw [if_neg (by simp), if_neg (by simp), getBytesBE_setBytesBE hbound,
      Nat.mod_eq_of_lt (by norm_num at hb ⊢; omega)]
    exact toJSNum_eq_self hjs
  · rw [if_pos rfl, if_pos rfl, getBytesLE_setBytesLE hbound,
      Nat.mod_eq_of_lt (by norm_num at hb ⊢; omega)]
    exact toJSNum_eq_self hjs

theorem stringGet_stringSet {m : Mem} {dv : DV} {o L : Nat} {s : List Nat}
    (hs : ∀ c ∈ s, ScalarValue c) (hfit : (utf8Encode s).length ≤ L)
    (hlast : s.getLast? ≠ some 0) (hbound : dv.off + o + L ≤ m.length) :
    stringGet o L dv (stringSet o L dv s m) = s := by
  unfold stringGet
  rw [readBytes_stringSet o L dv s m hbound hs, encodeIntoList_of_fits s L hfit,
    utf8Decode_encode_append s _ hs, utf8Decode_zeros]
  exact stripTrailingNuls_spec s _ hlast

theorem boolGet_boolSet {m : Mem} {dv : DV} {o : Nat} (b : Bool)
    (hbound : dv.off + o + 1 ≤ m.length) :
    boolGet o dv (boolSet o dv b m) = b := by
  unfold boolGet boolSet dvGetUint dvSetUint
  rw [if_pos rfl, if_pos rfl, getBytesLE_setBytesLE hbound]
  cases b
  · norm_num [toUintN]
  · norm_num [toUintN]
/-- C4: for every leaf codec and every value exactly representable in its
width and encoding — integers inside the field's range, binary64 patterns
already rounded to the target precision (exactly a widened narrow-format
pattern, canonical NaNs), strings of scalar values whose UTF-8 encoding
fits with no trailing NUL, and all booleans — writing the value and
reading the same field returns it unchanged. -/
theorem codec_roundtrip (c : Codec) (o : Nat) (dv : DV) (v : Codec.Val c) (m : Mem)
    (hm : MemOk m) (hbound : dv.off + o + c.width ≤ m.length) (hv : c.repOk v) :
    readField c o dv (writeField c o dv v m) = v := by
  cases c
  case u8c =>
    simp only [Codec.width] at hbound
    simp only [readField, writeField]
    unfold u8Get u8Set
    rw [dvGetUint_dvSetUint true v hbound]
    exact Int.emod_eq_of_lt hv.1 hv.2
  case u16c =>
    simp only [Codec.width] at hbound
    simp only [readField, writeField]
    unfold u16Get u16Set
    rw [dvGetUint_dvSetUint true v hbound]
    exact Int.emod_eq_of_lt hv.1 hv.2
  case u32c =>
    simp only [Codec.width] at hbound
    simp only [readField, writeField]
    unfold u32Get u32Set
    rw [dvGetUint_dvSetUint true v hbound]
    exact Int.emod_eq_of_lt hv.1 hv.2
  case u64c =>
    simp only [Codec.width] at hbound
    simp only [readField, writeField]
    unfold u64Get u64Set
    rw [dvGetUint_dvSetUint true v hbound]
    exact Int.emod_eq_of_lt hv.1 hv.2
  case i8c =>
    simp only [Codec.width] at hbound
    simp only [readField, writeField]
    unfold i8Get i8Set
    rw [dvGetInt_dvSetInt true v hbound]
    exact asIntN_eq_self (by norm_num) hv.1 hv.2
  case i16c =>
    simp only [Codec.width] at hbound
    simp only [readField, writeField]
    unfold i16Get i16Set
    rw [dvGetInt_dvSetInt true v hbound]
    exact asIntN_eq_self (by norm_num) hv.1 hv.2
  case i32c =>
    simp only [Codec.width] at hbound
    simp only [readField, writeField]
    unfold i32Get i32Set
    rw [dvGetInt_dvSetInt true v hbound]
    exact asIntN_eq_self (by norm_num) hv.1 hv.2
  case i64c =>
    simp only [Codec.width] at hbound
    simp only [readField, writeField]
    unfold i64Get i64Set
    rw [dvGetInt_dvSetInt true v hbound]
    exact asIntN_eq_self (by norm_num) hv.1 hv.2
  case u16bec =>
    simp only [Codec.width] at hbound
    simp only [readField, writeField]
    unfold u16beGet u16beSet
    rw [dvGetUint_dvSetUint false v hbound]
    exact Int.emod_eq_of_lt hv.1 hv.2
  case u32bec =>
    simp only [Codec.width] at hbound
    simp only [readField, writeField]
    unfold u32beGet u32beSet
    rw [dvGetUint_dvSetUint false v hbound]
    exact Int.emod_eq_of_lt hv.1 hv.2
  case u64bec =>
    simp only [Codec.width] at hbound
    simp only [readField, writeField]
    unfold u64beGet u64beSet
    rw [dvGetUint_dvSetUint false v hbound]
    exact Int.emod_eq_of_lt hv.1 hv.2
  case i16bec =>
    simp only [Codec.width] at hbound
    simp only [readField, writeField]
    unfold i16beGet i16beSet
    rw [dvGetInt_dvSetInt false v hbound]
    exact asIntN_eq_self (by norm_num) hv.1 hv.2
  case i32bec =>
    simp only [Codec.width] at hbound
    simp only [readField, writeField]
    unfold i32beGet i32beSet
    rw [dvGetInt_dvSetInt false v hbound]
    exact asIntN_eq_self (by norm_num) hv.1 hv.2
  case i64bec =>
    simp only [Codec.width] at hbound
    simp only [readField, writeField]
    unfold i64beGet i64beSet
    rw [dvGetInt_dvSetInt false v hbound]
    exact asIntN_eq_self (by norm_num) hv.1 hv.2
  case biguintlec L =>
    simp only [Codec.width] at hbound
    simp only [readField, writeField]
    rw [biguintleGet_biguintleSet hm v hbound]
    exact Int.emod_eq_of_lt hv.1 hv.2
  case bigintlec L =>
    simp only [Codec.width] at hbound
    obtain ⟨hL, h1, h2⟩ := hv
    simp only [readField, writeField]
    rw [bigintleGet_bigintleSet hm v hbound]
    exact asIntN_eq_self (by omega) h1 h2
  case f16c =>
    simp only [Codec.width] at hbound
    obtain ⟨hjs, w, hw, hnan, rfl⟩ := hv
    simp only [readField, writeField]
    unfold f16Get f16Set
    exact dvGetFloat16_dvSetFloat16 true hw hnan hjs.2 hbound
  case f32c =>
    simp only [Codec.width] at hbound
    obtain ⟨hjs, w, hw, hnan, rfl⟩ := hv
    simp only [readField, writeField]
    unfold f32Get f32Set
    exact dvGetFloat32_dvSetFloat32 true hw hnan hjs.2 hbound
  case f64c =>
    simp only [Codec.width] at hbound
    simp only [readField, writeField]
    unfold f64Get f64Set
    exact dvGetFloat64_dvSetFloat64 true hv.1 hv.2 hbound
  case f16bec =>
    simp only [Codec.width] at hbound
    obtain ⟨hjs, w, hw, hnan, rfl⟩ := hv
    simp only [readField, writeField]
    unfold f16beGet f16beSet
    exact dvGetFloat16_dvSetFloat16 false hw hnan hjs.2 hbound
  case f32bec =>
    simp only [Codec.width] at hbound
    obtain ⟨hjs, w, hw, hnan, rfl⟩ := hv
    simp only [readField, writeField]
    unfold f32beGet f32beSet
    exact dvGetFloat32_dvSetFloat32 false hw hnan hjs.2 hbound
  case f64bec =>
    simp only [Codec.width] at hbound
    simp only [readField, writeField]
    unfold f64beGet f64beSet
    exact dvGetFloat64_dvSetFloat64 false hv.1 hv.2 hbound
  case stringc L =>
    simp only [Codec.width] at hbound
    obtain ⟨hsc, hfit, hlast⟩ := hv
    simp only [readField, writeField]
    exact stringGet_stringSet hsc hfit hlast hbound
  case boolc =>
    simp only [Codec.width] at hbound
    simp only [readField, writeField]
    exact boolGet_boolSet v hbound
/-- C3: for every integer field codec — the ten fixed-width
signed/unsigned codecs, their big-endian variants, and the
arbitrary-width `biguintle`/`bigintle` of `L` bytes — and every integer
value `v` (in particular any value outside the field's range), writing
`v` and reading the field back yields `v mod 2^width` for the unsigned
kinds and the two's-complement truncation `asIntN width v` for the
signed kinds; every setter is a total function of the state, so no error
is raised. -/
theorem int_truncation (o L : Nat) (dv : DV) (m : Mem) (v : Int) (hm : MemOk m)
    (hb8 : dv.off + o + 8 ≤ m.length) (hbL : dv.off + o + L ≤ m.length) :
    u8Get o dv (u8Set o dv v m) = v % (2 : Int) ^ 8 ∧
    u16Get o dv (u16Set o dv v m) = v % (2 : Int) ^ 16 ∧
    u32Get o dv (u32Set o dv v m) = v % (2 : Int) ^ 32 ∧
    u64Get o dv (u64Set o dv v m) = v % (2 : Int) ^ 64 ∧
    u16beGet o dv (u16beSet o dv v m) = v % (2 : Int) ^ 16 ∧
    u32beGet o dv (u32beSet o dv v m) = v % (2 : Int) ^ 32 ∧
    u64beGet o dv (u64beSet o dv v m) = v % (2 : Int) ^ 64 ∧
    i8Get o dv (i8Set o dv v m) = asIntN 8 v ∧
    i16Get o dv (i16Set o dv v m) = asIntN 16 v ∧
    i32Get o dv (i32Set o dv v m) = asIntN 32 v ∧
    i64Get o dv (i64Set o dv v m) = asIntN 64 v ∧
    i16beGet o dv (i16beSet o dv v m) = asIntN 16 v ∧
    i32beGet o dv (i32beSet o dv v m) = asIntN 32 v ∧
    i64beGet o dv (i64beSet o dv v m) = asIntN 64 v ∧
    biguintleGet o L dv (biguintleSet o L dv v m) = v % (2 : Int) ^ (8 * L) ∧
    bigintleGet o L dv (bigintleSet o L dv v m) = asIntN (L * 8) v := by
  refine ⟨?_, ?_, ?_, ?_, ?_, ?_, ?_, ?_, ?_, ?_, ?_, ?_, ?_, ?_, ?_, ?_⟩
  · unfold u8Get u8Set
    rw [dvGetUint_dvSetUint true v (by omega)]
  · unfold u16Get u16Set
    rw [dvGetUint_dvSetUint true v (by omega)]
  · unfold u32Get u32Set
    rw [dvGetUint_dvSetUint true v (by omega)]
  · unfold u64Get u64Set
    rw [dvGetUint_dvSetUint true v (by omega)]
  · unfold u16beGet u16beSet
    rw [dvGetUint_dvSetUint false v (by omega)]
  · unfold u32beGet u32beSet
    rw [dvGetUint_dvSetUint false v (by omega)]
  · unfold u64beGet u64beSet
    rw [dvGetUint_dvSetUint false v (by omega)]
  · unfold i8Get i8Set
    rw [dvGetInt_dvSetInt true v (by omega)]
  · unfold i16Get i16Set
    rw [dvGetInt_dvSetInt true v (by omega)]
  · unfold i32Get i32Set
    rw [dvGetInt_dvSetInt true v (by omega)]
  · unfold i64Get i64Set
    rw [dvGetInt_dvSetInt true v (by omega)]
  · unfold i16beGet i16beSet
    rw [dvGetInt_dvSetInt false v (by omega)]
  · unfold i32beGet i32beSet
    rw [dvGetInt_dvSetInt false v (by omega)]
  · unfold i64beGet i64beSet
    rw [dvGetInt_dvSetInt false v (by omega)]
  · exact biguintleGet_biguintleSet hm v hbL
  · exact bigintleGet_bigintleSet hm v hbL

/-- Witness for the truncation theorem: an 8-byte buffer, field offset 0,
big-integer width 1, and the out-of-range value `-1`. -/
theorem int_truncation_witness :
    (MemOk (List.replicate 8 0)
      ∧ (⟨0, 8⟩ : DV).off + 0 + 8 ≤ (List.replicate 8 0 : Mem).length
      ∧ (⟨0, 8⟩ : DV).off + 0 + 1 ≤ (List.replicate 8 0 : Mem).length)
    ∧ (u8Get 0 ⟨0, 8⟩ (u8Set 0 ⟨0, 8⟩ (-1) (List.replicate 8 0)) = -1 % (2 : Int) ^ 8 ∧
    u16Get 0 ⟨0, 8⟩ (u16Set 0 ⟨0, 8⟩ (-1) (List.replicate 8 0)) = -1 % (2 : Int) ^ 16 ∧
    u32Get 0 ⟨0, 8⟩ (u32Set 0 ⟨0, 8⟩ (-1) (List.replicate 8 0)) = -1 % (2 : Int) ^ 32 ∧
    u64Get 0 ⟨0, 8⟩ (u64Set 0 ⟨0, 8⟩ (-1) (List.replicate 8 0)) = -1 % (2 : Int) ^ 64 ∧
    u16beGet 0 ⟨0, 8⟩ (u16beSet 0 ⟨0, 8⟩ (-1) (List.replicate 8 0)) = -1 % (2 : Int) ^ 16 ∧
    u32beGet 0 ⟨0, 8⟩ (u32beSet 0 ⟨0, 8⟩ (-1) (List.replicate 8 0)) = -1 % (2 : Int) ^ 32 ∧
    u64beGet 0 ⟨0, 8⟩ (u64beSet 0 ⟨0, 8⟩ (-1) (List.replicate 8 0)) = -1 % (2 : Int) ^ 64 ∧
    i8Get 0 ⟨0, 8⟩ (i8Set 0 ⟨0, 8⟩ (-1) (List.replicate 8 0)) = asIntN 8 (-1) ∧
    i16Get 0 ⟨0, 8⟩ (i16Set 0 ⟨0, 8⟩ (-1) (List.replicate 8 0)) = asIntN 16 (-1) ∧
    i32Get 0 ⟨0, 8⟩ (i32Set 0 ⟨0, 8⟩ (-1) (List.replicate 8 0)) = asIntN 32 (-1) ∧
    i64Get 0 ⟨0, 8⟩ (i64Set 0 ⟨0, 8⟩ (-1) (List.replicate 8 0)) = asIntN 64 (-1) ∧
    i16beGet 0 ⟨0, 8⟩ (i16beSet 0 ⟨0, 8⟩ (-1) (List.replicate 8 0)) = asIntN 16 (-1) ∧
    i32beGet 0 ⟨0, 8⟩ (i32beSet 0 ⟨0, 8⟩ (-1) (List.replicate 8 0)) = asIntN 32 (-1) ∧
    i64beGet 0 ⟨0, 8⟩ (i64beSet 0 ⟨0, 8⟩ (-1) (List.replicate 8 0)) = asIntN 64 (-1) ∧
    biguintleGet 0 1 ⟨0, 8⟩ (biguintleSet 0 1 ⟨0, 8⟩ (-1) (List.replicate 8 0))
      = -1 % (2 : Int) ^ (8 * 1) ∧
    bigintleGet 0 1 ⟨0, 8⟩ (bigintleSet 0 1 ⟨0, 8⟩ (-1) (List.replicate 8 0))
      = asIntN (1 * 8) (-1)) :=
  ⟨⟨by decide, by decide, by decide⟩,
    int_truncation 0 1 ⟨0, 8⟩ (List.replicate 8 0) (-1) (by decide) (by decide) (by decide)⟩
/-- Witness for the round-trip theorem: the in-range value 48879 written
and read back through a `u16` field at offset 1 of a 4-byte region. -/
theorem codec_roundtrip_witness :
    (MemOk (List.replicate 4 0)
      ∧ (⟨0, 4⟩ : DV).off + 1 + Codec.u16c.width ≤ (List.replicate 4 0 : Mem).length
      ∧ Codec.u16c.repOk (48879 : Int))
    ∧ readField .u16c 1 ⟨0, 4⟩ (writeField .u16c 1 ⟨0, 4⟩ (48879 : Int) (List.replicate 4 0))
      = (48879 : Int) :=
  ⟨⟨by decide, by decide, by norm_num [Codec.repOk]⟩,
    codec_roundtrip .u16c 1 ⟨0, 4⟩ (48879 : Int) (List.replicate 4 0)
      (by decide) (by decide) (by norm_num [Codec.repOk])⟩

/-- C6: two struct instances constructed from the same source object
(same `.buffer`, `.byteOffset`, `.byteLength`) are bound to the same
byte region of the same backing buffer — the constructor wraps the given
buffer in a view instead of copying it — so a field write performed
through instance A is observed immediately by a read of the overlapping
bytes through instance B: the `u8` read through B at the written offset
yields exactly the byte value A just stored. -/
theorem struct_aliasing (buf : Mem) (bo bl : Option Int) {dvA dvB : DV} {mA mB : Mem}
    (hA : structNew (.obj ⟨some buf, bo, bl⟩) = .ok (dvA, mA))
    (hB : structNew (.obj ⟨some buf, bo, bl⟩) = .ok (dvB, mB))
    (o : Nat) (v : Int) (hbound : dvA.off + o + 1 ≤ buf.length) :
    mA = buf ∧ mB = buf ∧ dvB = dvA ∧
    u8Get o dvB (u8Set o dvA v buf) = ((toUintN 8 v : Nat) : Int) := by
  simp only [structNew] at hA hB
  cases hdv : dataViewNew buf.length bo bl with
  | error e =>
    rw [hdv] at hA
    exact absurd hA (by simp)
  | ok dv0 =>
    rw [hdv] at hA hB
    simp only [Except.ok.injEq, Prod.mk.injEq] at hA hB
    obtain ⟨hA1, hA2⟩ := hA
    obtain ⟨hB1, hB2⟩ := hB
    subst hA1 hA2 hB1 hB2
    refine ⟨rfl, rfl, rfl, ?_⟩
    unfold u8Get u8Set dvGetUint dvSetUint
    rw [if_pos rfl, if_pos rfl, getBytesLE_setBytesLE hbound,
      Nat.mod_eq_of_lt (by simpa using toUintN_lt 1 v)]

/-- Witness for the aliasing theorem: two instances over bytes `[2, 6)` of
the same 8-byte buffer; a `u8` write of 300 through the first is read
back (as `300 mod 256`) through the second. -/
theorem struct_aliasing_witness :
    (structNew (.obj ⟨some (List.replicate 8 0), some 2, some 4⟩)
        = .ok (⟨2, 4⟩, List.replicate 8 0)
      ∧ (⟨2, 4⟩ : DV).off + 1 + 1 ≤ (List.replicate 8 0 : Mem).length)
    ∧ ((List.replicate 8 0 : Mem) = List.replicate 8 0
      ∧ (List.replicate 8 0 : Mem) = List.replicate 8 0
      ∧ (⟨2, 4⟩ : DV) = ⟨2, 4⟩
      ∧ u8Get 1 ⟨2, 4⟩ (u8Set 1 ⟨2, 4⟩ 300 (List.replicate 8 0))
        = ((toUintN 8 300 : Nat) : Int)) :=
  ⟨⟨rfl, by decide⟩,
    struct_aliasing (List.replicate 8 0) (some 2) (some 4)
      rfl rfl 1 300 (by decide)⟩

theorem getByte_dvSetUint_frame (m : Mem) (dv : DV) (o n : Nat) (le : Bool) (v : Int)
    {j : Nat} (hj : j < dv.off + o ∨ dv.off + o + n ≤ j) :
    getByte (dvSetUint m dv o n le v) j = getByte m j := by
  unfold dvSetUint
  cases le
  · rw [if_neg (by simp)]
    exact getByte_setBytesBE_frame _ _ _ _ hj
  · rw [if_pos rfl]
    exact getByte_setBytesLE_frame _ _ _ _ hj

theorem getByte_dvSetFloat16_frame (m : Mem) (dv : DV) (o : Nat) (le : Bool) (v : Nat)
    {j : Nat} (hj : j < dv.off + o ∨ dv.off + o + 2 ≤ j) :
    getByte (dvSetFloat16 m dv o le v) j = getByte m j := by
  unfold dvSetFloat16
  cases le
  · rw [if_neg (by simp)]
    exact getByte_setBytesBE_frame _ _ _ _ hj
  · rw [if_pos rfl]
    exact getByte_setBytesLE_frame _ _ _ _ hj

theorem getByte_dvSetFloat32_frame (m : Mem) (dv : DV) (o : Nat) (le : Bool) (v : Nat)
    {j : Nat} (hj : j < dv.off + o ∨ dv.off + o + 4 ≤ j) :
    getByte (dvSetFloat32 m dv o le v) j = getByte m j := by
  unfold dvSetFloat32
  cases le
  · rw [if_neg (by simp)]
    exact getByte_setBytesBE_frame _ _ _ _ hj
  · rw [if_pos rfl]
    exact getByte_setBytesLE_frame _ _ _ _ hj

theorem getByte_dvSetFloat64_frame (m : Mem) (dv : DV) (o : Nat) (le : Bool) (v : Nat)
    {j : Nat} (hj : j < dv.off + o ∨ dv.off + o + 8 ≤ j) :
    getByte (dvSetFloat64 m dv o le v) j = getByte m j := by
  unfold dvSetFloat64
  cases le
  · rw [if_neg (by simp)]
    exact getByte_setBytesBE_frame _ _ _ _ hj
  · rw [if_pos rfl]
    exact getByte_setBytesLE_frame _ _ _ _ hj

theorem getByte_biguintleSet_frame (o L : Nat) (dv : DV) (v : Int) (m : Mem)
    {j : Nat} (hj : j < dv.off + o ∨ dv.off + o + L ≤ j) :
    getByte (biguintleSet o L dv v m) j = getByte m j := by
  rw [getByte_biguintleSet]
  rw [if_neg (by omega)]

/-- C10: a field write mutates only the bytes of the field's own
sub-region `[dv.off + o, dv.off + o + width)` of the backing buffer
(`width` being the codec's fixed width, or the configured `byteLength`
of the string and big-integer codecs): every byte outside it is
unchanged; and the getter of every codec threads the buffer through all
its host read calls unchanged — a read changes no byte at all. -/
theorem field_frame (c : Codec) (o : Nat) (dv : DV) (v : Codec.Val c) (m : Mem)
    (j : Nat) (hj : j < dv.off + o ∨ dv.off + o + c.width ≤ j) :
    getByte (writeField c o dv v m) j = getByte m j ∧
    (readFieldM c o dv m).2 = m := by
  refine ⟨?_, readFieldM_pure c o dv m⟩
  cases c
  case u8c =>
    simp only [Codec.width] at hj
    exact getByte_dvSetUint_frame m dv o 1 true v hj
  case u16c =>
    simp only [Codec.width] at hj
    exact getByte_dvSetUint_frame m dv o 2 true v hj
  case u32c =>
    simp only [Codec.width] at hj
    exact getByte_dvSetUint_frame m dv o 4 true v hj
  case u64c =>
    simp only [Codec.width] at hj
    exact getByte_dvSetUint_frame m dv o 8 true v hj
  case i8c =>
    simp only [Codec.width] at hj
    exact getByte_dvSetUint_frame m dv o 1 true v hj
  case i16c =>
    simp only [Codec.width] at hj
    exact getByte_dvSetUint_frame m dv o 2 true v hj
  case i32c =>
    simp only [Codec.width] at hj
    exact getByte_dvSetUint_frame m dv o 4 true v hj
  case i64c =>
    simp only [Codec.width] at hj
    exact getByte_dvSetUint_frame m dv o 8 true v hj
  case u16bec =>
    simp only [Codec.width] at hj
    exact getByte_dvSetUint_frame m dv o 2 false v hj
  case u32bec =>
    simp only [Codec.width] at hj
    exact getByte_dvSetUint_frame m dv o 4 false v hj
  case u64bec =>
    simp only [Codec.width] at hj
    exact getByte_dvSetUint_frame m dv o 8 false v hj
  case i16bec =>
    simp only [Codec.width] at hj
    exact getByte_dvSetUint_frame m dv o 2 false v hj
  case i32bec =>
    simp only [Codec.width] at hj
    exact getByte_dvSetUint_frame m dv o 4 false v hj
  case i64bec =>
    simp only [Codec.width] at hj
    exact getByte_dvSetUint_frame m dv o 8 false v hj
  case biguintlec L =>
    simp only [Codec.width] at hj
    exact getByte_biguintleSet_frame o L dv v m hj
  case bigintlec L =>
    simp only [Codec.width] at hj
    exact getByte_biguintleSet_frame o L dv v m hj
  case f16c =>
    simp only [Codec.width] at hj
    exact getByte_dvSetFloat16_frame m dv o true v hj
  case f32c =>
    simp only [Codec.width] at hj
    exact getByte_dvSetFloat32_frame m dv o true v hj
  case f64c =>
    simp only [Codec.width] at hj
    exact getByte_dvSetFloat64_frame m dv o true v hj
  case f16bec =>
    simp only [Codec.width] at hj
    exact getByte_dvSetFloat16_frame m dv o false v hj
  case f32bec =>
    simp only [Codec.width] at hj
    exact getByte_dvSetFloat32_frame m dv o false v hj
  case f64bec =>
    simp only [Codec.width] at hj
    exact getByte_dvSetFloat64_frame m dv o false v hj
  case stringc L =>
    simp only [Codec.width] at hj
    exact getByte_stringSet_frame o L dv v m hj
  case boolc =>
    simp only [Codec.width] at hj
    exact getByte_dvSetUint_frame m dv o 1 true _ hj

/-- Witness for the frame theorem: writing a `u32` field at bytes
`[3, 7)` of a 12-byte buffer leaves byte 1 unchanged, and the `u32` read
returns the buffer unmodified. -/
theorem field_frame_witness :
    ((1 : Nat) < (⟨1, 8⟩ : DV).off + 2 ∨ (⟨1, 8⟩ : DV).off + 2 + Codec.u32c.width ≤ 1)
    ∧ (getByte (writeField .u32c 2 ⟨1, 8⟩ (7 : Int) (List.replicate 12 5)) 1
        = getByte (List.replicate 12 5) 1 ∧
      (readFieldM .u32c 2 ⟨1, 8⟩ (List.replicate 12 5)).2 = List.replicate 12 5) :=
  ⟨Or.inl (by decide),
    field_frame .u32c 2 ⟨1, 8⟩ (7 : Int) (List.replicate 12 5) 1 (Or.inl (by decide))⟩
/-- The shape of a declared field descriptor as produced by the factories
of `fields.ts` and installed on the subclass prototype by
`Object.defineProperties` in `subclassWithProperties` (`core.ts`): an
accessor property with a getter, possibly a setter, and an `enumerable`
flag (the fixed-width, float, string and bool factories set
`enumerable: true`; the big-integer factories omit it, so it defaults to
false). -/
structure FieldDescriptor where
  hasSet : Bool
  enumerable : Bool
deriving DecidableEq

/-- A struct type: its declared field set, living as accessor properties
on the class prototype. -/
structure StructClass where
  fields : List (String × FieldDescriptor)

/-- The string-keyed property state of one struct instance: its own
string-keyed properties and its extensible flag.  (The only own property
the constructor installs is the symbol-keyed DataView class field, which
no string name can collide with.) -/
structure StructInstance where
  ownNames : List String
  extensible : Bool
deriving DecidableEq

/-- The instance state the `Struct` constructor leaves behind: no
string-keyed own property, and non-extensible because of the
`Object.preventExtensions(this)` call (`core.ts`). -/
def structInstanceNew : StructInstance := ⟨[], false⟩

/-- Result of a strict-mode property assignment. -/
inductive SetResult where
  | ok
  | typeError
deriving DecidableEq

/-- Strict-mode `instance.k = v` (ECMAScript OrdinarySet over this
object shape; the assigned value itself does not influence which
property-structure path is taken): an existing own data property is
updated in place; otherwise a declared prototype accessor with a setter
is invoked, and one without a setter rejects; an undeclared name falls
through to creating a data property on the instance, which fails —
creating nothing — when the instance is not extensible. -/
def jsSet (cls : StructClass) (inst : StructInstance) (k : String) :
    SetResult × StructInstance :=
  if k ∈ inst.ownNames then (.ok, inst)
  else
    match cls.fields.find? (fun p => p.1 == k) with
    | some p => if p.2.hasSet then (.ok, inst) else (.typeError, inst)
    | none =>
      if inst.extensible then (.ok, ⟨k :: inst.ownNames, inst.extensible⟩)
      else (.typeError, inst)

/-- The string property names an instance exposes: its own names plus
the enumerable declared fields inherited from the prototype. -/
def enumNames (cls : StructClass) (inst : StructInstance) : List String :=
  inst.ownNames ++ (cls.fields.filter (fun p => p.2.enumerable)).map (fun p => p.1)

/-- C5: a freshly constructed struct instance carries no string-keyed own
property and is non-extensible, so assigning to any name or index
outside the declared field set is rejected with a `TypeError` and
creates no property — the instance state is unchanged — and every name
the instance exposes (own or inherited enumerable) is a declared field
name. -/
theorem struct_closed (cls : StructClass) (k : String)
    (hk : ∀ p ∈ cls.fields, p.1 ≠ k) :
    jsSet cls structInstanceNew k = (.typeError, structInstanceNew) ∧
    structInstanceNew.ownNames = [] ∧
    structInstanceNew.extensible = false ∧
    ∀ n ∈ enumNames cls structInstanceNew, ∃ d, (n, d) ∈ cls.fields := by
  refine ⟨?_, rfl, rfl, ?_⟩
  · unfold jsSet structInstanceNew
    rw [if_neg (by simp)]
    have hfind : cls.fields.find? (fun p => p.1 == k) = none := by
      rw [List.find?_eq_none]
      intro p hp
      simpa using hk p hp
    rw [hfind]
    rfl
  · intro n hn
    unfold enumNames structInstanceNew at hn
    simp only [List.nil_append, List.mem_map] at hn
    obtain ⟨p, hp, hpn⟩ := hn
    refine ⟨p.2, ?_⟩
    rw [← hpn]
    exact List.mem_of_mem_filter hp

/-- Witness for the closedness theorem: a class with an enumerable `x`
field and a non-enumerable `b` field (as `biguintle` would produce)
rejects an assignment to the undeclared name `y`. -/
theorem struct_closed_witness :
    (∀ p ∈ [("x", (⟨true, true⟩ : FieldDescriptor)), ("b", ⟨true, false⟩)], p.1 ≠ "y")
    ∧ (jsSet ⟨[("x", ⟨true, true⟩), ("b", ⟨true, false⟩)]⟩ structInstanceNew "y"
        = (.typeError, structInstanceNew) ∧
      structInstanceNew.ownNames = [] ∧
      structInstanceNew.extensible = false ∧
      ∀ n ∈ enumNames ⟨[("x", ⟨true, true⟩), ("b", ⟨true, false⟩)]⟩ structInstanceNew,
        ∃ d, (n, d) ∈ [("x", (⟨true, true⟩ : FieldDescriptor)), ("b", ⟨true, false⟩)]) :=
  ⟨by decide,
    struct_closed ⟨[("x", ⟨true, true⟩), ("b", ⟨true, false⟩)]⟩ "y" (by decide)⟩

end StructView
